import Mathlib

/-!
# formatJSONWhitespace

A shallow embedding of `src/formatJSONWhitespace.js`: the configuration tree and its
resolver `getConfig`, the indent renderer `getIndent`, and the single-pass scanner that
re-lays out a compact JSON text, followed by theorems about them.

JavaScript strings are modelled as lists of characters, one per code unit, so `input[i]`
is `input[i]?`, `s.length` is `List.length` and `a + b` is `a ++ b`.  The scanner only ever
compares characters with ASCII punctuation.
-/

namespace FormatJSONWhitespace

/-- A JavaScript string, as the list of its characters. -/
abbrev Str := List Char

/-! ## Data model -/

/-- A node of the `config` tree.  `expand` is absent or a boolean, `maxCharacters` is absent
or a number, `children` is absent or a mapping from keys to nodes (an association list whose
first entry for a key is the property of that name). -/
inductive ConfigNode where
  | mk (expand : Option Bool) (maxCharacters : Option Nat)
      (children : Option (List (Str × ConfigNode)))

/-- The property `expand` of a node. -/
def ConfigNode.expand : ConfigNode → Option Bool
  | .mk e _ _ => e

/-- The property `maxCharacters` of a node. -/
def ConfigNode.maxCharacters : ConfigNode → Option Nat
  | .mk _ m _ => m

/-- The property `children` of a node. -/
def ConfigNode.children : ConfigNode → Option (List (Str × ConfigNode))
  | .mk _ _ c => c

/-- The object literal `{}`. -/
def emptyNode : ConfigNode := .mk none none none

/-- The value of `children[key]` when `key` is an own property of `children`, which is what
`Object.prototype.hasOwnProperty` answers, else `none`. -/
def lookupChild (key : Str) : List (Str × ConfigNode) → Option ConfigNode
  | [] => none
  | (k, c) :: rest => if k = key then some c else lookupChild key rest

/-- The `options` argument: every property may be absent. -/
structure Options where
  indentSymbol : Option Str
  defaultKey : Option Str
  arrayKey : Option Str
  config : Option ConfigNode
  depth : Option Int

/-- The expression `x || d` for an optional string `x`: the empty string is falsy. -/
def orDefault (x : Option Str) (d : Str) : Str :=
  match x with
  | some (c :: cs) => c :: cs
  | _ => d

/-- Line 18: `options.indentSymbol || '\t'`. -/
def Options.indent (o : Options) : Str := orDefault o.indentSymbol ['\t']

/-- Line 19: `options.defaultKey || 'default'`. -/
def Options.defKey (o : Options) : Str := orDefault o.defaultKey "default".toList

/-- Line 20: `options.arrayKey || 'array'`. -/
def Options.arrKey (o : Options) : Str := orDefault o.arrayKey "array".toList

/-- Line 21: `options.config || {}` (an object is always truthy). -/
def Options.root (o : Options) : ConfigNode := o.config.getD emptyNode

/-- The options `{}`. -/
def noOptions : Options := ⟨none, none, none, none, none⟩

/-- The options with the property `depth` replaced. -/
def Options.withDepth (o : Options) (depth : Option Int) : Options :=
  { o with depth := depth }

/-! ## Helpers of the source -/

/-- The loop of `getIndent`:
`while ( indentCount > 0 ) { indentCount--; indent += indentSymbol; }`. -/
def getIndentLoop (indentSymbol : Str) : Nat → Str → Str
  | 0, indent => indent
  | indentCount + 1, indent => getIndentLoop indentSymbol indentCount (indent ++ indentSymbol)

/-- Lines 44-51, `getIndent( indentCount )`.  The count is a length of the path, or that plus
one, or `undefined` before any assignment; `undefined > 0` is false, so `undefined` behaves
as `0`. -/
def getIndent (indentSymbol : Str) (indentCount : Nat) : Str :=
  getIndentLoop indentSymbol indentCount []

/-- Lines 59-77, `getConfig( objectPath )`, with the closure variables `config` and
`defaultKey` as parameters.  The `for` loop is a recursion on the path; `break` is the
return of `{}` without a recursive call.  The calls `children.hasOwnProperty( ... )` of lines
63 and 65 are taken to reach `Object.prototype.hasOwnProperty`: this is the node the call
returns whenever it returns one.  `getConfigOutcome` keeps the case in which it throws. -/
def getConfig (defaultKey : Str) : ConfigNode → List Str → ConfigNode
  | currentConfig, [] => currentConfig
  | currentConfig, key :: rest =>
    match currentConfig.children with
    | some children =>
      match lookupChild key children with
      | some child => getConfig defaultKey child rest
      | none =>
        match lookupChild defaultKey children with
        | some child => getConfig defaultKey child rest
        | none => emptyNode
    | none => emptyNode

/-- Lines 59-77, `getConfig( objectPath )`, with its exception kept: `none` is a thrown
`TypeError`.  Lines 63 and 65 look the method `hasOwnProperty` up on the `children` object
itself, so when `children` has an own property named `hasOwnProperty`, that property, a
config node and not a function, is what line 63 calls, and the call throws; nothing is
returned.  Otherwise the method is `Object.prototype.hasOwnProperty` and the walk goes on. -/
def getConfigOutcome (defaultKey : Str) : ConfigNode → List Str → Option ConfigNode
  | currentConfig, [] => some currentConfig
  | currentConfig, key :: rest =>
    match currentConfig.children with
    | some children =>
      match lookupChild "hasOwnProperty".toList children with
      | some _ => none
      | none =>
        match lookupChild key children with
        | some child => getConfigOutcome defaultKey child rest
        | none =>
          match lookupChild defaultKey children with
          | some child => getConfigOutcome defaultKey child rest
          | none => some emptyNode
    | none => some emptyNode

/-! ## The scanner -/

/-- The variables declared before the loop (lines 23-34).  `inObject`, `inArray` and
`expectKey` can hold `undefined` in the source (the last element of an empty history); they
are only ever tested for truthiness, and `undefined` is kept as `false`. -/
structure State where
  output : Str
  line : Str
  inObjectHistory : List Bool
  inArrayHistory : List Bool
  currentPath : List Str
  currentKey : Option Str
  inObject : Bool
  inArray : Bool
  inKey : Bool
  inValue : Bool
  expectKey : Bool
  keyStartIndex : Nat

/-- The initial values of lines 23-34. -/
def State.init : State :=
  ⟨[], [], [], [], [], none, false, false, false, false, false, 0⟩

/-- The state together with the variables local to one iteration (lines 81-86). -/
structure Scan where
  st : State
  currentConfig : ConfigNode
  shouldBreakLine : Bool
  indentSize : Nat

/-- The pattern `currentConfig.expand !== undefined ? currentConfig.expand : fallback`. -/
def expandOr (currentConfig : ConfigNode) (fallback : Bool) : Bool :=
  match currentConfig.expand with
  | some b => b
  | none => fallback

/-- The test `!!currentConfig.maxCharacters`: absent and `0` are falsy. -/
def hasMaxCharacters (currentConfig : ConfigNode) : Bool :=
  match currentConfig.maxCharacters with
  | some m => m != 0
  | none => false

/-- The test `depth >= indentSize`, false when `depth` is `undefined`. -/
def depthGe (depth : Option Int) (indentSize : Nat) : Bool :=
  match depth with
  | some d => decide ((indentSize : Int) ≤ d)
  | none => false

/-- The test `depth > indentSize`, false when `depth` is `undefined`. -/
def depthGt (depth : Option Int) (indentSize : Nat) : Bool :=
  match depth with
  | some d => decide ((indentSize : Int) < d)
  | none => false

/-- Lines 89-100, the branch `char === '{'`. -/
def openObject (o : Options) (c : Scan) : Scan :=
  let s := c.st
  let currentPath := match s.currentKey with
    | some k => s.currentPath ++ [k]
    | none => s.currentPath
  let currentConfig := match s.currentKey with
    | some _ => getConfig o.defKey o.root currentPath
    | none => c.currentConfig
  let indentSize := currentPath.length + 1
  { st := { s with
      inObject := true
      inArray := false
      expectKey := true
      inObjectHistory := s.inObjectHistory ++ [true]
      inArrayHistory := s.inArrayHistory ++ [false]
      currentPath := currentPath }
    currentConfig := currentConfig
    shouldBreakLine := expandOr currentConfig (depthGe o.depth indentSize)
    indentSize := indentSize }

/-- Lines 102-109 and 127-134, shared by the branches `'}'` and `']'`: pop the histories and
the path, restore `inObject`, `inArray` and `currentKey` from what is left. -/
def popFrame (o : Options) (c : Scan) : Scan :=
  let s := c.st
  let inObjectHistory := s.inObjectHistory.dropLast
  let inArrayHistory := s.inArrayHistory.dropLast
  let currentPath := s.currentPath.dropLast
  let inObject := inObjectHistory.getLast?.getD false
  { c with
    st := { s with
      inObjectHistory := inObjectHistory
      inArrayHistory := inArrayHistory
      currentPath := currentPath
      inObject := inObject
      inArray := inArrayHistory.getLast?.getD false
      currentKey := currentPath.getLast?
      expectKey := inObject }
    currentConfig := getConfig o.defKey o.root currentPath }

/-- Lines 101-113, the branch `char === '}'`; `next` is `input[charIndex + 1]`. -/
def closeObject (o : Options) (next : Option Char) (c : Scan) : Scan :=
  let c := popFrame o c
  if next.isSome ∧ next ≠ some ',' then
    let indentSize := c.st.currentPath.length + 1
    { c with
      indentSize := indentSize
      shouldBreakLine := expandOr c.currentConfig (depthGe o.depth indentSize) }
  else c

/-- Lines 114-125, the branch `char === '['`. -/
def openArray (o : Options) (c : Scan) : Scan :=
  let s := c.st
  let currentPath := match s.currentKey with
    | some k => s.currentPath ++ [k]
    | none => s.currentPath
  let currentConfig := match s.currentKey with
    | some _ => getConfig o.defKey o.root currentPath
    | none => c.currentConfig
  let indentSize := currentPath.length + 1
  { st := { s with
      inObject := false
      inArray := true
      inObjectHistory := s.inObjectHistory ++ [false]
      inArrayHistory := s.inArrayHistory ++ [true]
      currentPath := currentPath
      currentKey := some o.arrKey }
    currentConfig := currentConfig
    shouldBreakLine :=
      expandOr currentConfig (hasMaxCharacters currentConfig || depthGe o.depth indentSize)
    indentSize := indentSize }

/-- Lines 126-138, the branch `char === ']'`; `next` is `input[charIndex + 1]`. -/
def closeArray (o : Options) (next : Option Char) (c : Scan) : Scan :=
  let c := popFrame o c
  if next ≠ some ',' then
    let indentSize := c.st.currentPath.length + 1
    { c with
      indentSize := indentSize
      shouldBreakLine := expandOr c.currentConfig
        (hasMaxCharacters c.currentConfig || depthGe o.depth indentSize) }
  else c

/-- Lines 139-141, the branch `char === ':'`. -/
def colon (c : Scan) : Scan :=
  { c with st := { c.st with expectKey := false, line := c.st.line ++ [' '] } }

/-- Lines 142-156, the branch `char === ','`, the width wrap of lines 149-155 included. -/
def comma (o : Options) (c : Scan) : Scan :=
  let s := c.st
  let expectKey := if !s.inArray then true else s.expectKey
  let line := s.line ++ [' ']
  let indentSize := s.currentPath.length + 1
  let shouldBreakLine := expandOr c.currentConfig (depthGe o.depth indentSize)
  let lineLength : Int := (line.length : Int) - ((o.indent.length * indentSize : Nat) : Int)
  let wrap : Bool := hasMaxCharacters c.currentConfig && !shouldBreakLine &&
    decide (((c.currentConfig.maxCharacters.getD 0 : Nat) : Int) ≤ lineLength)
  { c with
    st := { s with
      expectKey := expectKey
      output := if wrap then s.output ++ (line ++ ['\n']) else s.output
      line := if wrap then getIndent o.indent indentSize else line }
    indentSize := indentSize
    shouldBreakLine := shouldBreakLine }

/-- Lines 158-161: the look-ahead for a closing bracket; `next` is `input[charIndex + 1]`. -/
def lookahead (o : Options) (next : Option Char) (c : Scan) : Scan :=
  if next = some '}' ∨ next = some ']' then
    let indentSize := c.st.currentPath.length
    { c with
      indentSize := indentSize
      shouldBreakLine := expandOr c.currentConfig
        (hasMaxCharacters c.currentConfig || depthGt o.depth indentSize) }
  else c

/-- Lines 88-162: the structural part of an iteration, run when the scanner is in neither a
key nor a value string. -/
def structural (o : Options) (char : Char) (next : Option Char) (c : Scan) : Scan :=
  if !c.st.inKey && !c.st.inValue then
    let c :=
      if char = '{' then openObject o c
      else if char = '}' then closeObject o next c
      else if char = '[' then openArray o c
      else if char = ']' then closeArray o next c
      else if char = ':' then colon c
      else if char = ',' then comma o c
      else c
    lookahead o next c
  else c

/-- Lines 164-185: the handling of a double quote.  `prev` is `input[charIndex - 1]`, `next`
is `input[charIndex + 1]` and `key` is `input.slice( keyStartIndex, charIndex )`. -/
def quote (o : Options) (charIndex : Nat) (prev next : Option Char) (key : Str) (c : Scan) :
    Scan :=
  let s := c.st
  if (s.inKey || s.inValue) && decide (prev ≠ some '\\') then
    if s.inKey then
      { c with st := { s with inKey := false, currentKey := some key } }
    else
      let c := { c with st := { s with inValue := false } }
      if next ≠ some ',' ∧ next ≠ some ':' then
        let indentSize := s.currentPath.length
        { c with
          indentSize := indentSize
          shouldBreakLine := expandOr c.currentConfig
            (hasMaxCharacters c.currentConfig || depthGt o.depth indentSize) }
      else c
  else
    if s.expectKey then
      { c with st := { s with inKey := true, keyStartIndex := charIndex + 1 } }
    else
      { c with st := { s with inValue := true } }

/-- Lines 187-190: flush the line when a break was decided. -/
def flush (o : Options) (c : Scan) : State :=
  if c.shouldBreakLine then
    { c.st with
      output := c.st.output ++ (c.st.line ++ ['\n'])
      line := getIndent o.indent c.indentSize }
  else c.st

/-- Lines 80-186: one iteration up to, and without, the flush of lines 187-190. -/
def scanChar (o : Options) (input : Str) (charIndex : Nat) (char : Char) (s : State) : Scan :=
  let next := input[charIndex + 1]?
  let prev := if charIndex = 0 then none else input[charIndex - 1]?
  let c : Scan :=
    { st := { s with line := s.line ++ [char] }
      currentConfig := getConfig o.defKey o.root s.currentPath
      shouldBreakLine := false
      indentSize := 0 }
  let c := structural o char next c
  if char = '"' then
    quote o charIndex prev next ((input.take charIndex).drop c.st.keyStartIndex) c
  else c

/-- The body of the `for` loop, lines 79-191, at index `charIndex`. -/
def step (o : Options) (input : Str) (s : State) (charIndex : Nat) : State :=
  match input[charIndex]? with
  | some char => flush o (scanChar o input charIndex char s)
  | none => s

/-- Line 195: `output.replace( / \n/g, '\n' )`, one left-to-right pass over non-overlapping
matches. -/
def replaceSpaceNewline : Str → Str
  | [] => []
  | [c] => [c]
  | c :: d :: rest =>
    if c = ' ' ∧ d = '\n' then '\n' :: replaceSpaceNewline rest
    else c :: replaceSpaceNewline (d :: rest)

/-- The state after the `for` loop of line 79 has run over the whole input. -/
def scan (o : Options) (input : Str) : State :=
  (List.range input.length).foldl (step o input) State.init

/-- Lines 23-35 and 79-197: the formatter applied to the compact text `input`. -/
def format (o : Options) (input : Str) : Str :=
  let s := scan o input
  replaceSpaceNewline (s.output ++ s.line)

/-- Lines 149-151, the test under which the `,` branch wraps the line on its own:
`maxCharacters` is truthy and the line, with the comma and the space after it, less
`indentSymbol.length * indentSize`, has reached it.  `s` is the state before the comma. -/
def widthReached (o : Options) (node : ConfigNode) (s : State) : Bool :=
  hasMaxCharacters node &&
    decide (((node.maxCharacters.getD 0 : Nat) : Int)
      ≤ ((s.line.length + 2 : Nat) : Int)
        - ((o.indent.length * (s.currentPath.length + 1) : Nat) : Int))

/-- The shape of every assignment to `shouldBreakLine`: it is still `false`, or it is
`currentConfig.expand !== undefined ? currentConfig.expand : fallback` for the node the
iteration holds in `currentConfig`. -/
def Scan.decided (c : Scan) : Prop :=
  c.shouldBreakLine = false ∨ ∃ fallback, c.shouldBreakLine = expandOr c.currentConfig fallback

/-! ## The serializer the formatter starts from -/

/-- The values `JSON.stringify` serializes to a JSON text: `null`, booleans, numbers (the
integers only: fractions and exponents are not modelled), strings, arrays and objects (the
members in insertion order). -/
inductive JSON where
  | null
  | bool (b : Bool)
  | num (n : Int)
  | str (s : Str)
  | arr (items : List JSON)
  | obj (members : List (Str × JSON))

/-- A lower-case hexadecimal digit. -/
def hexDigit (n : Nat) : Char :=
  if n < 10 then Char.ofNat (48 + n) else Char.ofNat (87 + n)

/-- The escape of one character inside a JSON string literal, as ECMAScript's
`QuoteJSONString` writes it. -/
def quoteChar (c : Char) : Str :=
  if c = '"' then ['\\', '"']
  else if c = '\\' then ['\\', '\\']
  else if c = '\x08' then ['\\', 'b']
  else if c = '\x0c' then ['\\', 'f']
  else if c = '\n' then ['\\', 'n']
  else if c = '\r' then ['\\', 'r']
  else if c = '\t' then ['\\', 't']
  else if c.toNat < 32 then
    ['\\', 'u', '0', '0', hexDigit (c.toNat / 16), hexDigit (c.toNat % 16)]
  else [c]

/-- A string literal: the escaped characters between double quotes. -/
def quoteJSONString (s : Str) : Str :=
  '"' :: (s.flatMap quoteChar ++ ['"'])

mutual
/-- The compact text `JSON.stringify( value )` (line 36), with no whitespace between tokens. -/
def stringify : JSON → Str
  | .null => "null".toList
  | .bool b => if b then "true".toList else "false".toList
  | .num n => n.repr.toList
  | .str s => quoteJSONString s
  | .arr items => '[' :: (stringifyItems items ++ [']'])
  | .obj members => '{' :: (stringifyMembers members ++ ['}'])
/-- The elements of an array, separated by commas. -/
def stringifyItems : List JSON → Str
  | [] => []
  | x :: rest =>
    match rest with
    | [] => stringify x
    | _ :: _ => stringify x ++ ',' :: stringifyItems rest
/-- The members of an object, separated by commas. -/
def stringifyMembers : List (Str × JSON) → Str
  | [] => []
  | (k, v) :: rest =>
    match rest with
    | [] => quoteJSONString k ++ ':' :: stringify v
    | _ :: _ => quoteJSONString k ++ ':' :: stringify v ++ ',' :: stringifyMembers rest
end

/-- Lines 17-198, `formatJSONStringWhitespace( inputJSON, options )`: serialize, then scan. -/
def formatJSONStringWhitespace (inputJSON : JSON) (o : Options) : Str :=
  format o (stringify inputJSON)

/-! ## Reference definitions, written from the specification -/

/-- The whitespace characters of the re-compaction property: space, tab and newline. -/
def isWhitespace (c : Char) : Bool :=
  c = ' ' || c = '\t' || c = '\n'

/-- The text with every whitespace character deleted. -/
def stripWhitespace (s : Str) : Str :=
  s.filter (fun c => !isWhitespace c)

/-- The text a state has emitted so far, without its whitespace. -/
def State.compacted (s : State) : Str :=
  stripWhitespace (s.output ++ s.line)

/-- The text emitted so far: `output` followed by the unflushed `line`. -/
def State.text (s : State) : Str :=
  s.output ++ s.line

/-- Whether the scanner is inside a key string or a value string. -/
def State.inString (s : State) : Bool :=
  s.inKey || s.inValue

/-- What a compact JSON text without backslashes guarantees about its whitespace: it holds no
line break, and every space stands inside a string literal, that is, after an odd number of
double quotes (without backslashes every double quote opens or closes a literal). -/
def compactText (text : Str) : Prop :=
  '\n' ∉ text ∧ ∀ i : Nat, text[i]? = some ' ' → (text.take i).count '"' % 2 = 1

/-- A text closed with respect to string literals: a compact text with an even number of
double quotes, so that what follows it starts outside a string literal. -/
def closedText (text : Str) : Prop :=
  compactText text ∧ text.count '"' % 2 = 0

/-- One move of the specification's walk: into `children[key]` when the node has children
with that key, else into `children[defaultKey]` when that exists, else nowhere. -/
def descend (defaultKey : Str) (node : ConfigNode) (key : Str) : Option ConfigNode :=
  match node.children with
  | none => none
  | some children =>
    match lookupChild key children with
    | some child => some child
    | none => lookupChild defaultKey children

/-- The specification's `resolve(configRoot, path)`: make the moves for the keys of the path
in order, and return `{}` as soon as one of them leads nowhere. -/
def resolve (defaultKey : Str) (configRoot : ConfigNode) (path : List Str) : ConfigNode :=
  (path.foldlM (descend defaultKey) configRoot).getD emptyNode

/-- The specification's default layout, read with JSON's own string grammar: `inString` holds
inside a string literal and `escaped` right after a backslash that escapes the character
that follows; one space is added after each `:` and `,` outside a string literal. -/
def specDefaultLayoutFrom : Bool → Bool → Str → Str
  | _, _, [] => []
  | inString, escaped, c :: rest =>
    if inString then
      if escaped then c :: specDefaultLayoutFrom true false rest
      else if c = '\\' then c :: specDefaultLayoutFrom true true rest
      else if c = '"' then c :: specDefaultLayoutFrom false false rest
      else c :: specDefaultLayoutFrom true false rest
    else if c = '"' then c :: specDefaultLayoutFrom true false rest
    else if c = ':' ∨ c = ',' then c :: ' ' :: specDefaultLayoutFrom false false rest
    else c :: specDefaultLayoutFrom false false rest

/-- The specification's default layout of a compact JSON text. -/
def specDefaultLayout (text : Str) : Str :=
  specDefaultLayoutFrom false false text

/-! ## The resolver -/

/-- The source's resolver and the specification's walk agree on every tree and path. -/
theorem getConfig_resolve (defaultKey : Str) (path : List Str) :
    ∀ config : ConfigNode, getConfig defaultKey config path = resolve defaultKey config path := by
  induction path with
  | nil => intro config; rfl
  | cons key rest ih =>
    intro config
    unfold getConfig
    simp only [resolve, List.foldlM_cons, descend]
    cases hch : config.children with
    | none => rfl
    | some children =>
      cases hk : lookupChild key children with
      | some child =>
        simp only [hk, Option.bind_eq_bind, Option.some_bind]
        exact ih child
      | none =>
        cases hd : lookupChild defaultKey children with
        | some child =>
          simp only [hk, hd, Option.bind_eq_bind, Option.some_bind]
          exact ih child
        | none =>
          simp only [hk, hd, Option.bind_eq_bind, Option.none_bind, Option.getD_none]

/-- The walk of `getConfig`, one key at a time: the exact key wins over the wildcard, the
wildcard is taken when the exact key is absent, the walk stops with `{}` when neither exists,
the empty path returns the root node, and below a node without children every non-empty path
resolves to `{}`. -/
theorem getConfig_walk (defaultKey : Str) (config : ConfigNode) (path : List Str) :
    getConfig defaultKey config path = resolve defaultKey config path
    ∧ getConfig defaultKey config [] = config
    ∧ (∀ key rest children child, config.children = some children →
        lookupChild key children = some child →
        getConfig defaultKey config (key :: rest) = getConfig defaultKey child rest)
    ∧ (∀ key rest children child, config.children = some children →
        lookupChild key children = none → lookupChild defaultKey children = some child →
        getConfig defaultKey config (key :: rest) = getConfig defaultKey child rest)
    ∧ (∀ key rest children, config.children = some children →
        lookupChild key children = none → lookupChild defaultKey children = none →
        getConfig defaultKey config (key :: rest) = emptyNode)
    ∧ (config.children = none →
        ∀ key rest, getConfig defaultKey config (key :: rest) = emptyNode) := by
  refine ⟨getConfig_resolve defaultKey path config, rfl, ?_, ?_, ?_, ?_⟩
  · intro key rest children child hch hk
    rw [getConfig, hch]
    simp only [hk]
  · intro key rest children child hch hk hd
    rw [getConfig, hch]
    simp only [hk, hd]
  · intro key rest children hch hk hd
    rw [getConfig, hch]
    simp only [hk, hd]
  · intro hch key rest
    rw [getConfig, hch]

/-- Whenever the call `getConfig( objectPath )` returns, it returns the node of `getConfig`. -/
theorem getConfigOutcome_returns (defaultKey : Str) (path : List Str) :
    ∀ config : ConfigNode, getConfigOutcome defaultKey config path = none
      ∨ getConfigOutcome defaultKey config path = some (getConfig defaultKey config path) := by
  induction path with
  | nil => intro config; exact Or.inr rfl
  | cons key rest ih =>
    intro config
    unfold getConfigOutcome getConfig
    cases config.children with
    | none => exact Or.inr rfl
    | some children =>
      simp only []
      cases lookupChild "hasOwnProperty".toList children with
      | some _ => exact Or.inl rfl
      | none =>
        simp only []
        cases lookupChild key children with
        | some child => exact ih child
        | none =>
          simp only []
          cases lookupChild defaultKey children with
          | some child => exact ih child
          | none => exact Or.inr rfl

/-- C10 (failing input). With the config `{children: {hasOwnProperty: {expand: true}}}` and
the default wildcard key, the call `getConfig( ["x"] )` throws a `TypeError` and returns no
node, where the walk of the specification returns `{}`: line 63 calls the child named
`hasOwnProperty` in place of the method.  Whenever the call does return, for every tree,
wildcard key and path, it returns the node of the specification's walk. -/
theorem C10_getConfig_throws :
    getConfigOutcome "default".toList
        (.mk none none (some [("hasOwnProperty".toList, .mk (some true) none none)]))
        ["x".toList] = none
    ∧ resolve "default".toList
        (.mk none none (some [("hasOwnProperty".toList, .mk (some true) none none)]))
        ["x".toList] = emptyNode
    ∧ ∀ (defaultKey : Str) (config : ConfigNode) (path : List Str),
        getConfigOutcome defaultKey config path = none
        ∨ getConfigOutcome defaultKey config path = some (resolve defaultKey config path) := by
  refine ⟨by rfl, by rfl, ?_⟩
  intro defaultKey config path
  rw [← getConfig_resolve defaultKey path config]
  exact getConfigOutcome_returns defaultKey path config

/-! ## Re-compaction -/

theorem stripWhitespace_append (a b : Str) :
    stripWhitespace (a ++ b) = stripWhitespace a ++ stripWhitespace b := by
  simp [stripWhitespace]

theorem stripWhitespace_blank (s : Str) (h : ∀ c ∈ s, isWhitespace c = true) :
    stripWhitespace s = [] := by
  simp only [stripWhitespace, List.filter_eq_nil_iff]
  intro c hc
  simp [h c hc]

theorem stripWhitespace_getIndentLoop (sym : Str) (h : ∀ c ∈ sym, isWhitespace c = true) :
    ∀ (n : Nat) (acc : Str),
      stripWhitespace (getIndentLoop sym n acc) = stripWhitespace acc := by
  intro n
  induction n with
  | zero => intro acc; rfl
  | succ n ih =>
    intro acc
    rw [getIndentLoop, ih, stripWhitespace_append, stripWhitespace_blank sym h,
      List.append_nil]

theorem stripWhitespace_getIndent (sym : Str) (h : ∀ c ∈ sym, isWhitespace c = true)
    (n : Nat) : stripWhitespace (getIndent sym n) = [] :=
  stripWhitespace_getIndentLoop sym h n []

theorem stripWhitespace_replaceSpaceNewline (s : Str) :
    stripWhitespace (replaceSpaceNewline s) = stripWhitespace s := by
  induction s using replaceSpaceNewline.induct with
  | case1 => rfl
  | case2 c => rfl
  | case3 c d rest h ih =>
    obtain ⟨hc, hd⟩ := h
    subst hc hd
    rw [replaceSpaceNewline, if_pos ⟨rfl, rfl⟩]
    have h1 : isWhitespace ' ' = true := rfl
    have h2 : isWhitespace '\n' = true := rfl
    simp only [stripWhitespace] at ih ⊢
    simp only [List.filter_cons, h1, h2, Bool.not_true, Bool.false_eq_true, if_false]
    exact ih
  | case4 c d rest h ih =>
    rw [replaceSpaceNewline, if_neg h]
    simp only [stripWhitespace] at ih ⊢
    simp only [List.filter_cons, ih]

theorem indent_blank (o : Options)
    (h : ∀ s, o.indentSymbol = some s → ∀ c ∈ s, isWhitespace c = true) :
    ∀ c ∈ o.indent, isWhitespace c = true := by
  intro c hc
  unfold Options.indent orDefault at hc
  split at hc
  · next a as heq => exact h _ heq c hc
  · simp only [List.mem_singleton] at hc
    subst hc
    rfl

theorem openObject_compacted (o : Options) (c : Scan) :
    (openObject o c).st.compacted = c.st.compacted := rfl

theorem openArray_compacted (o : Options) (c : Scan) :
    (openArray o c).st.compacted = c.st.compacted := rfl

theorem popFrame_compacted (o : Options) (c : Scan) :
    (popFrame o c).st.compacted = c.st.compacted := rfl

theorem closeObject_compacted (o : Options) (next : Option Char) (c : Scan) :
    (closeObject o next c).st.compacted = c.st.compacted := by
  unfold closeObject
  split <;> rfl

theorem closeArray_compacted (o : Options) (next : Option Char) (c : Scan) :
    (closeArray o next c).st.compacted = c.st.compacted := by
  unfold closeArray
  split <;> rfl

theorem colon_compacted (c : Scan) : (colon c).st.compacted = c.st.compacted := by
  show stripWhitespace (c.st.output ++ (c.st.line ++ [' '])) = _
  rw [← List.append_assoc, stripWhitespace_append]
  exact List.append_nil _

theorem comma_compacted (o : Options) (h : ∀ c ∈ o.indent, isWhitespace c = true)
    (c : Scan) : (comma o c).st.compacted = c.st.compacted := by
  have hsp : stripWhitespace [' '] = [] := rfl
  have hnl : stripWhitespace ['\n'] = [] := rfl
  unfold comma State.compacted
  simp only []
  split_ifs
  · simp only [stripWhitespace_append, stripWhitespace_getIndent _ h, hsp, hnl,
      List.append_nil]
  · simp only [stripWhitespace_append, hsp, List.append_nil]

theorem lookahead_st (o : Options) (next : Option Char) (c : Scan) :
    (lookahead o next c).st = c.st := by
  unfold lookahead
  split <;> rfl

theorem structural_compacted (o : Options) (h : ∀ c ∈ o.indent, isWhitespace c = true)
    (char : Char) (next : Option Char) (c : Scan) :
    (structural o char next c).st.compacted = c.st.compacted := by
  unfold structural
  split
  · rw [lookahead_st]
    split_ifs
    · exact openObject_compacted o c
    · exact closeObject_compacted o next c
    · exact openArray_compacted o c
    · exact closeArray_compacted o next c
    · exact colon_compacted c
    · exact comma_compacted o h c
    · rfl
  · rfl

theorem quote_compacted (o : Options) (charIndex : Nat) (prev next : Option Char)
    (key : Str) (c : Scan) :
    (quote o charIndex prev next key c).st.compacted = c.st.compacted := by
  unfold quote
  simp only []
  split_ifs <;> rfl

theorem flush_compacted (o : Options) (h : ∀ c ∈ o.indent, isWhitespace c = true)
    (c : Scan) : (flush o c).compacted = c.st.compacted := by
  have hnl : stripWhitespace ['\n'] = [] := rfl
  unfold flush State.compacted
  split_ifs
  · simp only [stripWhitespace_append, stripWhitespace_getIndent _ h, hnl, List.append_nil]
  · rfl

theorem step_compacted (o : Options) (h : ∀ c ∈ o.indent, isWhitespace c = true)
    (input : Str) (s : State) (charIndex : Nat) (char : Char)
    (hc : input[charIndex]? = some char) :
    (step o input s charIndex).compacted = s.compacted ++ stripWhitespace [char] := by
  have hline : ∀ t : State, t = { s with line := s.line ++ [char] } →
      t.compacted = s.compacted ++ stripWhitespace [char] := by
    intro t ht
    subst ht
    show stripWhitespace (s.output ++ (s.line ++ [char])) = _
    rw [← List.append_assoc, stripWhitespace_append]
    rfl
  unfold step
  rw [hc]
  simp only []
  rw [flush_compacted o h]
  unfold scanChar
  simp only []
  by_cases hq : char = '"'
  · rw [if_pos hq, quote_compacted, structural_compacted o h]
    exact hline _ rfl
  · rw [if_neg hq, structural_compacted o h]
    exact hline _ rfl

theorem scan_prefix_compacted (o : Options) (h : ∀ c ∈ o.indent, isWhitespace c = true)
    (input : Str) : ∀ n, n ≤ input.length →
      ((List.range n).foldl (step o input) State.init).compacted
        = stripWhitespace (input.take n) := by
  intro n
  induction n with
  | zero => intro _; rfl
  | succ n ih =>
    intro hn
    have hlt : n < input.length := hn
    have hget : input[n]? = some input[n] := List.getElem?_eq_getElem hlt
    rw [List.range_succ, List.foldl_append, List.foldl_cons, List.foldl_nil,
      step_compacted o h input _ n _ hget, ih (Nat.le_of_lt hlt), List.take_succ, hget,
      stripWhitespace_append]
    rfl

theorem format_compacted (o : Options) (h : ∀ c ∈ o.indent, isWhitespace c = true)
    (input : Str) : stripWhitespace (format o input) = stripWhitespace input := by
  unfold format
  simp only []
  rw [stripWhitespace_replaceSpaceNewline]
  have := scan_prefix_compacted o h input input.length le_rfl
  rw [List.take_length] at this
  exact this

/-- C2. For every input text and every options whose `indentSymbol` holds only whitespace
characters (space, tab, newline), deleting the whitespace characters of the output gives the
input with its whitespace characters deleted; so for an input without whitespace, stripping
the whitespace of the output gives back the input itself. -/
theorem C2_recompaction (o : Options) (input : Str)
    (h : ∀ s, o.indentSymbol = some s → ∀ c ∈ s, isWhitespace c = true) :
    stripWhitespace (format o input) = stripWhitespace input
    ∧ ((∀ c ∈ input, isWhitespace c = false) →
        stripWhitespace (format o input) = input) := by
  have key := format_compacted o (indent_blank o h) input
  refine ⟨key, fun hin => ?_⟩
  rw [key]
  simp only [stripWhitespace, List.filter_eq_self]
  intro c hc
  simp [hin c hc]

/-- C2 at the text `[1,[2,3]]`, two spaces as indent symbol and depth 2. -/
theorem C2_recompaction_witness :
    (∀ c ∈ [' ', ' '], isWhitespace c = true)
    ∧ stripWhitespace (format ⟨some [' ', ' '], none, none, none, some 2⟩ "[1,[2,3]]".toList)
        = "[1,[2,3]]".toList :=
  ⟨by decide,
    (C2_recompaction ⟨some [' ', ' '], none, none, none, some 2⟩ "[1,[2,3]]".toList
      (by
        intro s hs c hc
        cases hs
        revert c
        decide)).2 (by decide)⟩

/-! ## The scanner on concrete values -/

set_option maxRecDepth 20000

/-- C1 (failing input). The value `["a\\", "b,c"]` (its first string ends with a backslash)
formatted with no options comes out as the compact text of the different value
`["a\\", "b, c"]`: a space was inserted inside the second string literal, so parsing the
output does not give back the input. -/
theorem C1_round_trip_broken :
    formatJSONStringWhitespace (.arr [.str "a\\".toList, .str "b,c".toList]) noOptions
      = stringify (.arr [.str "a\\".toList, .str "b, c".toList])
    ∧ JSON.arr [.str "a\\".toList, .str "b,c".toList]
      ≠ JSON.arr [.str "a\\".toList, .str "b, c".toList] := by
  refine ⟨by rfl, ?_⟩
  simp

/-- C3 (failing input). In default mode the compact text `["a\\","b,c"]` is laid out as
`["a\\","b, c"]`: no space follows the comma between the two elements and a space is added
inside the second string literal, where the default layout of the specification is
`["a\\", "b,c"]`. -/
theorem C3_default_mode_broken :
    formatJSONStringWhitespace (.arr [.str "a\\".toList, .str "b,c".toList]) noOptions
      = "[\"a\\\\\",\"b, c\"]".toList
    ∧ specDefaultLayout (stringify (.arr [.str "a\\".toList, .str "b,c".toList]))
      = "[\"a\\\\\", \"b,c\"]".toList :=
  ⟨by rfl, by rfl⟩

/-- C4 (failing input). With depth 1 and no config, the text `[[1],[2]]` has two containers
at nesting depth 2: the first stays on one line, the second is expanded, its element at one
indent and its closing bracket at none. -/
theorem C4_depth_sibling_expanded :
    formatJSONStringWhitespace (.arr [.arr [.num 1], .arr [.num 2]])
        ⟨none, none, none, none, some 1⟩
      = "[\n\t[1],\n\t[\n\t2\n]\n]\n\t".toList := by
  rfl

/-- C5 (failing input). With `expand: true` at path `["a"]`, the object under `a` of
`{"a":{"b":"\\","c":2}}` gets a line break after its opening brace, but none after its comma
(the break falls after the opening quote of the key `c`) and none before its closing brace.
The witness of the claim, `{"a":{"b":1,"c":2}}`, is laid out as claimed: expanded under
`expand: true` with no depth, on one line under `expand: false` with depth 5. -/
theorem C5_expand_true_missed :
    formatJSONStringWhitespace
        (.obj [("a".toList, .obj [("b".toList, .str "\\".toList), ("c".toList, .num 2)])])
        ⟨none, none, none,
          some (.mk none none (some [("a".toList, .mk (some true) none none)])), none⟩
      = "\x7b\"a\": \x7b\n\t\t\"b\": \"\\\\\",\"\n\tc\":2\x7d\x7d".toList
    ∧ formatJSONStringWhitespace
        (.obj [("a".toList, .obj [("b".toList, .num 1), ("c".toList, .num 2)])])
        ⟨none, none, none,
          some (.mk none none (some [("a".toList, .mk (some true) none none)])), none⟩
      = "\x7b\"a\": \x7b\n\t\t\"b\": 1,\n\t\t\"c\": 2\n\t\x7d\x7d".toList
    ∧ formatJSONStringWhitespace
        (.obj [("a".toList, .obj [("b".toList, .num 1), ("c".toList, .num 2)])])
        ⟨none, none, none,
          some (.mk none none (some [("a".toList, .mk (some false) none none)])), some 5⟩
      = "\x7b\n\t\"a\": \x7b\"b\": 1, \"c\": 2\x7d\n\x7d".toList :=
  ⟨by rfl, by rfl, by rfl⟩

/-- C7 (failing input). With `maxCharacters: 1` on the root node, the array `["a\\","b"]` gets
no line break after its comma, although the line has reached the width, and the break before
the second element falls inside its string literal.  The witness of the claim, the numbers 1
to 10 with `maxCharacters: 20`, is laid out as claimed, with the element lines
`1, 2, 3, 4, 5, 6, 7,` and `8, 9, 10`. -/
theorem C7_width_wrap_missed :
    formatJSONStringWhitespace (.arr [.str "a\\".toList, .str "b".toList])
        ⟨none, none, none, some (.mk none (some 1) none), none⟩
      = "[\n\t\"a\\\\\",\"\nb\"\n]".toList
    ∧ formatJSONStringWhitespace
        (.arr [.num 1, .num 2, .num 3, .num 4, .num 5, .num 6, .num 7, .num 8, .num 9, .num 10])
        ⟨none, none, none, some (.mk none (some 20) none), none⟩
      = "[\n\t1, 2, 3, 4, 5, 6, 7,\n\t8, 9, 10\n]\n\t".toList :=
  ⟨by rfl, by rfl⟩

/-- C9 (failing input). With the wildcard node `default: {expand: true}`, the member `y` of
`{"x":{"a":"\\"},"y":{"b":1}}` is not expanded: no line break follows its opening brace and
none precedes its closing brace; the breaks fall inside the key literals `"y"` and `"b"`.
The witness of the claim, `{"x":{"a":1},"y":{"b":1}}`, is laid out as claimed: both members
expanded, the root object not. -/
theorem C9_wildcard_member_not_expanded :
    formatJSONStringWhitespace
        (.obj [("x".toList, .obj [("a".toList, .str "\\".toList)]),
               ("y".toList, .obj [("b".toList, .num 1)])])
        ⟨none, none, none,
          some (.mk none none (some [("default".toList, .mk (some true) none none)])), none⟩
      = "\x7b\"x\": \x7b\n\t\t\"a\": \"\\\\\"\x7d,\"\n\ty\":\x7b\"\n\tb\":1\x7d\x7d".toList
    ∧ formatJSONStringWhitespace
        (.obj [("x".toList, .obj [("a".toList, .num 1)]),
               ("y".toList, .obj [("b".toList, .num 1)])])
        ⟨none, none, none,
          some (.mk none none (some [("default".toList, .mk (some true) none none)])), none⟩
      = "\x7b\"x\": \x7b\n\t\t\"a\": 1\n\t\x7d, \"y\": \x7b\n\t\t\"b\": 1\n\t\x7d\x7d".toList :=
  ⟨by rfl, by rfl⟩

/-! ## A depth below one -/

theorem depthGe_nonpos (D : Int) (hD : D ≤ 0) (n : Nat) :
    depthGe (some D) (n + 1) = false := by
  simp only [depthGe, decide_eq_false_iff_not]
  omega

theorem depthGt_nonpos (D : Int) (hD : D ≤ 0) (n : Nat) :
    depthGt (some D) n = false := by
  simp only [depthGt, decide_eq_false_iff_not]
  omega

theorem openObject_depth_nonpos (o : Options) (D : Int) (hD : D ≤ 0) (c : Scan) :
    openObject (o.withDepth (some D)) c = openObject (o.withDepth none) c := by
  unfold openObject
  simp only [Options.withDepth, depthGe_nonpos D hD]
  rfl

theorem closeObject_depth_nonpos (o : Options) (D : Int) (hD : D ≤ 0)
    (next : Option Char) (c : Scan) :
    closeObject (o.withDepth (some D)) next c = closeObject (o.withDepth none) next c := by
  unfold closeObject
  simp only [Options.withDepth, depthGe_nonpos D hD]
  rfl

theorem openArray_depth_nonpos (o : Options) (D : Int) (hD : D ≤ 0) (c : Scan) :
    openArray (o.withDepth (some D)) c = openArray (o.withDepth none) c := by
  unfold openArray
  simp only [Options.withDepth, depthGe_nonpos D hD]
  rfl

theorem closeArray_depth_nonpos (o : Options) (D : Int) (hD : D ≤ 0)
    (next : Option Char) (c : Scan) :
    closeArray (o.withDepth (some D)) next c = closeArray (o.withDepth none) next c := by
  unfold closeArray
  simp only [Options.withDepth, depthGe_nonpos D hD]
  rfl

theorem comma_depth_nonpos (o : Options) (D : Int) (hD : D ≤ 0) (c : Scan) :
    comma (o.withDepth (some D)) c = comma (o.withDepth none) c := by
  unfold comma
  simp only [Options.withDepth, depthGe_nonpos D hD]
  rfl

theorem lookahead_depth_nonpos (o : Options) (D : Int) (hD : D ≤ 0)
    (next : Option Char) (c : Scan) :
    lookahead (o.withDepth (some D)) next c = lookahead (o.withDepth none) next c := by
  unfold lookahead
  simp only [Options.withDepth, depthGt_nonpos D hD]
  rfl

theorem structural_depth_nonpos (o : Options) (D : Int) (hD : D ≤ 0) (char : Char)
    (next : Option Char) (c : Scan) :
    structural (o.withDepth (some D)) char next c
      = structural (o.withDepth none) char next c := by
  unfold structural
  simp only [lookahead_depth_nonpos o D hD, openObject_depth_nonpos o D hD,
    closeObject_depth_nonpos o D hD, openArray_depth_nonpos o D hD,
    closeArray_depth_nonpos o D hD, comma_depth_nonpos o D hD]

theorem quote_depth_nonpos (o : Options) (D : Int) (hD : D ≤ 0) (charIndex : Nat)
    (prev next : Option Char) (key : Str) (c : Scan) :
    quote (o.withDepth (some D)) charIndex prev next key c
      = quote (o.withDepth none) charIndex prev next key c := by
  unfold quote
  simp only [Options.withDepth, depthGt_nonpos D hD]
  rfl

theorem step_depth_nonpos (o : Options) (D : Int) (hD : D ≤ 0) (input : Str) :
    step (o.withDepth (some D)) input = step (o.withDepth none) input := by
  funext s charIndex
  unfold step
  cases input[charIndex]? with
  | none => rfl
  | some char =>
    simp only []
    have hscan : scanChar (o.withDepth (some D)) input charIndex char s
        = scanChar (o.withDepth none) input charIndex char s := by
      unfold scanChar
      simp only [structural_depth_nonpos o D hD, quote_depth_nonpos o D hD]
      rfl
    rw [hscan]
    rfl

theorem format_depth_nonpos (o : Options) (D : Int) (hD : D ≤ 0) (input : Str) :
    format (o.withDepth (some D)) input = format (o.withDepth none) input := by
  unfold format scan
  rw [step_depth_nonpos o D hD]

/-- C8 (amended). With `maxCharacters = M` on the root node and `expand` unset, the output is
the same for every depth that is absent or at most 0, for every input text (a root array of
scalar elements in particular): there the width wrap alone decides.  A depth of 1 or more is
tested first in the `,` branch: at every comma scanned at the root level the line is broken
and re-indented by one symbol, whatever its length. -/
theorem C8_depth_precedes_width_wrap (indentSymbol defaultKey arrayKey : Option Str) (M : Nat)
    (children : Option (List (Str × ConfigNode))) (D : Int) :
    (D ≤ 0 → ∀ input : Str,
      format ⟨indentSymbol, defaultKey, arrayKey, some (.mk none (some M) children), some D⟩
          input
        = format ⟨indentSymbol, defaultKey, arrayKey, some (.mk none (some M) children), none⟩
          input)
    ∧ (1 ≤ D → ∀ (input : Str) (charIndex : Nat) (s : State),
        input[charIndex]? = some ',' → input[charIndex + 1]? ≠ some '}' →
        input[charIndex + 1]? ≠ some ']' →
        s.inKey = false → s.inValue = false → s.currentPath = [] →
        (step ⟨indentSymbol, defaultKey, arrayKey, some (.mk none (some M) children), some D⟩
            input s charIndex).output = s.output ++ (s.line ++ [',', ' ', '\n'])
        ∧ (step ⟨indentSymbol, defaultKey, arrayKey, some (.mk none (some M) children), some D⟩
            input s charIndex).line = getIndent (orDefault indentSymbol ['\t']) 1) := by
  constructor
  · intro hD input
    exact format_depth_nonpos
      ⟨indentSymbol, defaultKey, arrayKey, some (.mk none (some M) children), none⟩ D hD input
  · intro hD input charIndex s hc hn1 hn2 hk hv hp
    have hge : depthGe (some D) (0 + 1) = true := by
      simp only [depthGe, decide_eq_true_eq]
      omega
    have hquote : (',' : Char) ≠ '"' := by decide
    simp only [step, hc, scanChar, structural, hk, hv, hp, comma, lookahead, hn1, hn2, flush,
      getConfig, Options.root, Option.getD_some, expandOr, ConfigNode.expand, hge,
      List.length_nil, Options.indent, if_neg hquote, Bool.not_false, Bool.not_true,
      Bool.and_self, Bool.and_false, Bool.false_and, or_self, if_true, if_false,
      Bool.false_eq_true, List.append_assoc, List.singleton_append, List.cons_append,
      List.nil_append, and_self]
    simp

/-! ## `expand: false` and the width wrap -/

theorem closeObject_decided (o : Options) (next : Option Char) (c : Scan)
    (h : c.shouldBreakLine = false) : (closeObject o next c).decided := by
  unfold closeObject
  split
  · exact Or.inr ⟨_, rfl⟩
  · exact Or.inl h

theorem closeArray_decided (o : Options) (next : Option Char) (c : Scan)
    (h : c.shouldBreakLine = false) : (closeArray o next c).decided := by
  unfold closeArray
  split
  · exact Or.inr ⟨_, rfl⟩
  · exact Or.inl h

theorem lookahead_decided (o : Options) (next : Option Char) (c : Scan) (h : c.decided) :
    (lookahead o next c).decided := by
  unfold lookahead
  split
  · exact Or.inr ⟨_, rfl⟩
  · exact h

theorem structural_decided (o : Options) (char : Char) (next : Option Char) (c : Scan)
    (h : c.shouldBreakLine = false) : (structural o char next c).decided := by
  unfold structural
  split
  · apply lookahead_decided
    split_ifs
    · exact Or.inr ⟨_, rfl⟩
    · exact closeObject_decided o next c h
    · exact Or.inr ⟨_, rfl⟩
    · exact closeArray_decided o next c h
    · exact Or.inl h
    · exact Or.inr ⟨_, rfl⟩
    · exact Or.inl h
  · exact Or.inl h

theorem quote_decided (o : Options) (charIndex : Nat) (prev next : Option Char) (key : Str)
    (c : Scan) (h : c.decided) : (quote o charIndex prev next key c).decided := by
  unfold quote
  simp only []
  split_ifs
  · exact h
  · exact Or.inr ⟨_, rfl⟩
  · exact h
  · exact h
  · exact h

theorem scanChar_decided (o : Options) (input : Str) (charIndex : Nat) (char : Char)
    (s : State) : (scanChar o input charIndex char s).decided := by
  unfold scanChar
  simp only []
  by_cases hq : char = '"'
  · rw [if_pos hq]
    exact quote_decided _ _ _ _ _ _ (structural_decided _ _ _ _ rfl)
  · rw [if_neg hq]
    exact structural_decided _ _ _ _ rfl

theorem decided_expand_false (c : Scan) (h : c.decided)
    (hx : c.currentConfig.expand = some false) : c.shouldBreakLine = false := by
  rcases h with h | ⟨fallback, h⟩
  · exact h
  · rw [h, expandOr, hx]

theorem quote_output (o : Options) (charIndex : Nat) (prev next : Option Char) (key : Str)
    (c : Scan) : (quote o charIndex prev next key c).st.output = c.st.output := by
  unfold quote
  simp only []
  split_ifs <;> rfl

theorem closeObject_output (o : Options) (next : Option Char) (c : Scan) :
    (closeObject o next c).st.output = c.st.output := by
  unfold closeObject
  split <;> rfl

theorem closeArray_output (o : Options) (next : Option Char) (c : Scan) :
    (closeArray o next c).st.output = c.st.output := by
  unfold closeArray
  split <;> rfl

theorem lookahead_currentConfig (o : Options) (next : Option Char) (c : Scan) :
    (lookahead o next c).currentConfig = c.currentConfig := by
  unfold lookahead
  split <;> rfl

theorem structural_output_of_not_comma (o : Options) (char : Char) (next : Option Char)
    (c : Scan) (h : char ≠ ',') : (structural o char next c).st.output = c.st.output := by
  unfold structural
  split
  · rw [lookahead_st]
    split_ifs
    · rfl
    · exact closeObject_output o next c
    · rfl
    · exact closeArray_output o next c
    · rfl
    · rfl
  · rfl

theorem structural_comma (o : Options) (next : Option Char) (c : Scan)
    (hk : c.st.inKey = false) (hv : c.st.inValue = false) :
    structural o ',' next c = lookahead o next (comma o c) := by
  unfold structural
  rw [hk, hv]
  simp

theorem scanChar_comma (o : Options) (input : Str) (charIndex : Nat) (s : State)
    (hk : s.inKey = false) (hv : s.inValue = false) :
    scanChar o input charIndex ',' s
      = lookahead o input[charIndex + 1]? (comma o
          { st := { s with line := s.line ++ [','] }
            currentConfig := getConfig o.defKey o.root s.currentPath
            shouldBreakLine := false
            indentSize := 0 }) := by
  have hquote : (',' : Char) ≠ '"' := by decide
  unfold scanChar
  simp only []
  rw [if_neg hquote]
  exact structural_comma o _ _ hk hv

theorem scanChar_in_string (o : Options) (input : Str) (charIndex : Nat) (char : Char)
    (s : State) (h : ¬(s.inKey = false ∧ s.inValue = false)) :
    (scanChar o input charIndex char s).st.output = s.output := by
  have hg : (!s.inKey && !s.inValue) = false := by
    cases hk : s.inKey <;> cases hv : s.inValue <;> simp_all
  unfold scanChar
  simp only []
  by_cases hq : char = '"'
  · rw [if_pos hq, quote_output]
    unfold structural
    simp only [hg]
    rfl
  · rw [if_neg hq]
    unfold structural
    simp only [hg]
    rfl

theorem scanChar_output_of_not_comma (o : Options) (input : Str) (charIndex : Nat)
    (char : Char) (s : State) (h : char ≠ ',') :
    (scanChar o input charIndex char s).st.output = s.output := by
  unfold scanChar
  simp only []
  by_cases hq : char = '"'
  · rw [if_pos hq, quote_output, structural_output_of_not_comma o char _ _ h]
  · rw [if_neg hq, structural_output_of_not_comma o char _ _ h]

/-- C6 (amended). When the node resolved in an iteration has `expand: false`, the break
decision of that iteration is "no break" at every trigger (after an opening bracket, after a
comma, before and after a closing bracket, after a value string), for every depth and every
`maxCharacters`.  The width wrap of the `,` branch is not part of that decision and is not
suppressed: the iteration emits a line exactly when its character is a comma outside a
string, the node sets a truthy `maxCharacters` and the line, with the comma and the space
after it, less `indentSymbol.length * indentSize`, has reached it. -/
theorem C6_expand_false_keeps_width_wrap (o : Options) (input : Str) (charIndex : Nat)
    (char : Char) (s : State) (hc : input[charIndex]? = some char)
    (hx : (scanChar o input charIndex char s).currentConfig.expand = some false) :
    (scanChar o input charIndex char s).shouldBreakLine = false
    ∧ (step o input s charIndex).output =
        if char = ',' ∧ s.inKey = false ∧ s.inValue = false
            ∧ widthReached o (getConfig o.defKey o.root s.currentPath) s = true
        then s.output ++ (s.line ++ [',', ' ', '\n'])
        else s.output := by
  have hsb := decided_expand_false _ (scanChar_decided o input charIndex char s) hx
  refine ⟨hsb, ?_⟩
  have hstep : (step o input s charIndex).output
      = (scanChar o input charIndex char s).st.output := by
    unfold step
    rw [hc]
    simp only []
    unfold flush
    rw [hsb]
    rfl
  rw [hstep]
  by_cases hcomma : char = ','
  · subst hcomma
    by_cases hg : s.inKey = false ∧ s.inValue = false
    · obtain ⟨hk, hv⟩ := hg
      rw [scanChar_comma o input charIndex s hk hv, lookahead_currentConfig] at hx
      rw [scanChar_comma o input charIndex s hk hv, lookahead_st]
      have hx' : (getConfig o.defKey o.root s.currentPath).expand = some false := hx
      simp only [comma, expandOr, hx', widthReached, hk, hv, true_and, Bool.not_false,
        Bool.and_true, List.length_append, List.length_singleton, Bool.and_eq_true,
        decide_eq_true_eq, List.append_assoc, List.singleton_append, List.cons_append,
        List.nil_append]
      split_ifs with h1 h2 h2
      · rfl
      · exact absurd h1 h2
      · exact absurd h2 h1
      · rfl
    · rw [scanChar_in_string o input charIndex ',' s hg, if_neg (fun h => hg ⟨h.2.1, h.2.2.1⟩)]
  · rw [scanChar_output_of_not_comma o input charIndex char s hcomma,
      if_neg (fun h => hcomma h.1)]

/-- C6 at the comma of `[1,2]`, the root node being `{expand: false, maxCharacters: 1}`: the
resolved node has `expand: false`, and the iteration emits the line `[1, `. -/
theorem C6_expand_false_keeps_width_wrap_witness :
    (scanChar ⟨none, none, none, some (.mk (some false) (some 1) none), none⟩ "[1,2]".toList 2
        ','
        ((List.range 2).foldl
          (step ⟨none, none, none, some (.mk (some false) (some 1) none), none⟩ "[1,2]".toList)
          State.init)).currentConfig.expand = some false
    ∧ (step ⟨none, none, none, some (.mk (some false) (some 1) none), none⟩ "[1,2]".toList
        ((List.range 2).foldl
          (step ⟨none, none, none, some (.mk (some false) (some 1) none), none⟩ "[1,2]".toList)
          State.init) 2).output = "[1, \n".toList :=
  ⟨rfl,
    (C6_expand_false_keeps_width_wrap
      ⟨none, none, none, some (.mk (some false) (some 1) none), none⟩ "[1,2]".toList 2 ','
      ((List.range 2).foldl
        (step ⟨none, none, none, some (.mk (some false) (some 1) none), none⟩ "[1,2]".toList)
        State.init) rfl rfl).2.trans (by rfl)⟩

/-- C6 (counterexample). The root array `[1,2]` whose node is
`{expand: false, maxCharacters: 1}` is formatted as `[1,` / tab `2]`: a line break is emitted
after its comma, inside the container, although the node has `expand: false`. -/
theorem C6_expand_false_still_wraps :
    formatJSONStringWhitespace (.arr [.num 1, .num 2])
        ⟨none, none, none, some (.mk (some false) (some 1) none), none⟩
      = "[1,\n\t2]".toList
    ∧ '\n' ∈ formatJSONStringWhitespace (.arr [.num 1, .num 2])
        ⟨none, none, none, some (.mk (some false) (some 1) none), none⟩ :=
  ⟨by rfl, by decide⟩

/-- C8 (counterexample). The root array `[1,2,3]` with `maxCharacters: 20` on the root node is
laid out one element per line with depth 1 and on a single element line with depth absent:
the output depends on the depth. -/
theorem C8_depth_changes_wrapped_array :
    formatJSONStringWhitespace (.arr [.num 1, .num 2, .num 3])
        ⟨none, none, none, some (.mk none (some 20) none), some 1⟩
      = "[\n\t1,\n\t2,\n\t3\n]\n\t".toList
    ∧ formatJSONStringWhitespace (.arr [.num 1, .num 2, .num 3])
        ⟨none, none, none, some (.mk none (some 20) none), none⟩
      = "[\n\t1, 2, 3\n]\n\t".toList
    ∧ formatJSONStringWhitespace (.arr [.num 1, .num 2, .num 3])
        ⟨none, none, none, some (.mk none (some 20) none), some 1⟩
      ≠ formatJSONStringWhitespace (.arr [.num 1, .num 2, .num 3])
        ⟨none, none, none, some (.mk none (some 20) none), none⟩ :=
  ⟨by rfl, by rfl, by decide⟩

/-- C8 at the text `[1,2,3]` with `maxCharacters: 20`: depth 0 gives the output of no depth,
and with depth 1 the iteration at the first comma flushes the line `tab 1, `. -/
theorem C8_depth_precedes_width_wrap_witness :
    format ⟨none, none, none, some (.mk none (some 20) none), some 0⟩ "[1,2,3]".toList
      = format ⟨none, none, none, some (.mk none (some 20) none), none⟩ "[1,2,3]".toList
    ∧ (step ⟨none, none, none, some (.mk none (some 20) none), some 1⟩ "[1,2,3]".toList
        ((List.range 2).foldl
          (step ⟨none, none, none, some (.mk none (some 20) none), some 1⟩ "[1,2,3]".toList)
          State.init) 2).output = "[\n\t1, \n".toList :=
  ⟨(C8_depth_precedes_width_wrap none none none 20 none 0).1 (le_refl 0) "[1,2,3]".toList,
    ((C8_depth_precedes_width_wrap none none none 20 none 1).2 (le_refl 1) "[1,2,3]".toList 2
      ((List.range 2).foldl
        (step ⟨none, none, none, some (.mk none (some 20) none), some 1⟩ "[1,2,3]".toList)
        State.init) rfl (by decide) (by decide) rfl rfl rfl).1.trans (by rfl)⟩

/-! ## Path, key and string tracking on concrete values -/

/-- C11 (failing input). In `[[1],[2]]` the first inner array is scanned with the path
`["array"]`, the second with the empty path; in `{"a":[[1],[2]]}` the first inner array is
scanned with the path `["a", "array"]`, the second with `["a", "a"]`.  So the node at
`children[arrayKey]` governs the first element only: with `{children: {array: {expand:
true}}}` the text `[[1],[2]]` has its first inner array expanded and its second one not. -/
theorem C11_later_element_path :
    ((List.range 2).foldl (step noOptions "[[1],[2]]".toList) State.init).currentPath
      = ["array".toList]
    ∧ ((List.range 6).foldl (step noOptions "[[1],[2]]".toList) State.init).currentPath = []
    ∧ ((List.range 7).foldl (step noOptions "\x7b\"a\":[[1],[2]]\x7d".toList)
        State.init).currentPath = ["a".toList, "array".toList]
    ∧ ((List.range 11).foldl (step noOptions "\x7b\"a\":[[1],[2]]\x7d".toList)
        State.init).currentPath = ["a".toList, "a".toList]
    ∧ formatJSONStringWhitespace (.arr [.arr [.num 1], .arr [.num 2]])
        ⟨none, none, none,
          some (.mk none none (some [("array".toList, .mk (some true) none none)])), none⟩
      = "[[\n\t\t1\n\t], [2]]".toList :=
  ⟨by rfl, by rfl, by rfl, by rfl, by rfl⟩

/-- C12 (failing input). After the second inner `[` of `[[1],[2]]` two containers are open
(both histories hold two frames) and the path is empty, where the nesting depth is 1; after
the first inner `[` the path has length 1. -/
theorem C12_path_length_broken :
    ((List.range 6).foldl (step noOptions "[[1],[2]]".toList) State.init).inArrayHistory.length
      = 2
    ∧ ((List.range 6).foldl (step noOptions "[[1],[2]]".toList)
        State.init).inObjectHistory.length = 2
    ∧ ((List.range 6).foldl (step noOptions "[[1],[2]]".toList) State.init).currentPath.length
      = 0
    ∧ ((List.range 2).foldl (step noOptions "[[1],[2]]".toList) State.init).currentPath.length
      = 1 :=
  ⟨by rfl, by rfl, by rfl, by rfl⟩

/-- C13 (failing input). The value `["\\", 1]` has the compact text `["\\",1]`, whose string
literal ends with an escaped backslash.  After its closing quote (five characters scanned)
the scanner is still inside a value string, so the comma after it is not scanned as
structure: the output has no space after that comma. -/
theorem C13_escaped_backslash_keeps_string_open :
    stringify (.arr [.str "\\".toList, .num 1]) = "[\"\\\\\",1]".toList
    ∧ ((List.range 5).foldl (step noOptions "[\"\\\\\",1]".toList) State.init).inValue = true
    ∧ formatJSONStringWhitespace (.arr [.str "\\".toList, .num 1]) noOptions
      = "[\"\\\\\",1]".toList :=
  ⟨by rfl, by rfl, by rfl⟩

/-- C14 (failing input). The object `{"a\"b": 1}` has the compact text `{"a\"b":1}`; at the
closing quote of its key (seven characters scanned) the pending key is `b`, not the raw text
`a\"b` between the quotes.  A config node listed under `b` is then applied to the value of
the property `a"b`. -/
theorem C14_key_with_escaped_quote :
    stringify (.obj [("a\"b".toList, .num 1)]) = "\x7b\"a\\\"b\":1\x7d".toList
    ∧ ((List.range 7).foldl (step noOptions "\x7b\"a\\\"b\":1\x7d".toList)
        State.init).currentKey = some "b".toList
    ∧ formatJSONStringWhitespace (.obj [("a\"b".toList, .obj [("x".toList, .num 1)])])
        ⟨none, none, none,
          some (.mk none none (some [("b".toList, .mk (some true) none none)])), none⟩
      = "\x7b\"a\\\"b\": \x7b\n\t\t\"x\": 1\n\t\x7d\x7d".toList :=
  ⟨by rfl, by rfl, by rfl⟩

/-- C15 (failing input). With depth 1 the text `["}"]`, which has no backslash, is formatted
with a line break between the opening quote of its string and the `}` inside it. -/
theorem C15_break_inside_string :
    formatJSONStringWhitespace (.arr [.str "\x7d".toList]) ⟨none, none, none, none, some 1⟩
      = "[\n\t\"\n\x7d\"\n]\n\t".toList := by
  rfl

/-- C16 (failing input). With depth 1 the root array `[1]` is formatted with a line break and
one indent after its closing bracket, while the root object `{"a":1}` ends with its closing
brace. -/
theorem C16_trailing_break_after_root_array :
    formatJSONStringWhitespace (.arr [.num 1]) ⟨none, none, none, none, some 1⟩
      = "[\n\t1\n]\n\t".toList
    ∧ formatJSONStringWhitespace (.obj [("a".toList, .num 1)])
        ⟨none, none, none, none, some 1⟩
      = "\x7b\n\t\"a\": 1\n\x7d".toList :=
  ⟨by rfl, by rfl⟩

/-! ## Depth, indent symbol and indent renderer -/

/-- C18. For every input text, config tree and symbols, a depth `D <= 0` gives the output of
an absent depth. -/
theorem C18_nonpositive_depth (indentSymbol defaultKey arrayKey : Option Str)
    (config : Option ConfigNode) (input : Str) (D : Int) (hD : D ≤ 0) :
    format ⟨indentSymbol, defaultKey, arrayKey, config, some D⟩ input
      = format ⟨indentSymbol, defaultKey, arrayKey, config, none⟩ input :=
  format_depth_nonpos ⟨indentSymbol, defaultKey, arrayKey, config, none⟩ D hD input

/-- C18 at the text `{"a":[1,2]}`, a wildcard node with `maxCharacters: 3` and depth -3. -/
theorem C18_nonpositive_depth_witness :
    ((-3 : Int) ≤ 0)
    ∧ format ⟨none, none, none,
          some (.mk none none (some [("default".toList, .mk none (some 3) none)])), some (-3)⟩
        "\x7b\"a\":[1,2]\x7d".toList
      = format ⟨none, none, none,
          some (.mk none none (some [("default".toList, .mk none (some 3) none)])), none⟩
        "\x7b\"a\":[1,2]\x7d".toList :=
  ⟨by decide, C18_nonpositive_depth none none none
    (some (.mk none none (some [("default".toList, .mk none (some 3) none)])))
    "\x7b\"a\":[1,2]\x7d".toList (-3) (by decide)⟩

theorem step_empty_indentSymbol (indentSymbol : Option Str)
    (h : orDefault indentSymbol ['\t'] = ['\t'])
    (defaultKey arrayKey : Option Str) (config : Option ConfigNode) (depth : Option Int)
    (input : Str) :
    step ⟨indentSymbol, defaultKey, arrayKey, config, depth⟩ input
      = step ⟨none, defaultKey, arrayKey, config, depth⟩ input := by
  have hind : Options.indent ⟨indentSymbol, defaultKey, arrayKey, config, depth⟩
      = Options.indent ⟨none, defaultKey, arrayKey, config, depth⟩ := h
  funext s charIndex
  unfold step
  cases input[charIndex]? with
  | none => rfl
  | some char =>
    simp only []
    unfold flush scanChar structural comma
    simp only [hind]
    rfl

/-- C19. For every input and every other option, the indent symbol `""` gives the output of
the indent symbol `"\t"`, which is also the output of an absent indent symbol; the indent
symbol in effect is never empty, so an indentation of zero width per level cannot be
requested. -/
theorem C19_empty_indentSymbol (defaultKey arrayKey : Option Str) (config : Option ConfigNode)
    (depth : Option Int) (input : Str) :
    format ⟨some [], defaultKey, arrayKey, config, depth⟩ input
      = format ⟨some ['\t'], defaultKey, arrayKey, config, depth⟩ input
    ∧ format ⟨some [], defaultKey, arrayKey, config, depth⟩ input
      = format ⟨none, defaultKey, arrayKey, config, depth⟩ input
    ∧ ∀ o : Options, o.indent ≠ [] := by
  have h1 := step_empty_indentSymbol (some []) rfl defaultKey arrayKey config depth input
  have h2 := step_empty_indentSymbol (some ['\t']) rfl defaultKey arrayKey config depth input
  refine ⟨?_, ?_, ?_⟩
  · unfold format scan
    rw [h1, h2]
  · unfold format scan
    rw [h1]
  · intro o
    unfold Options.indent orDefault
    split <;> simp

theorem getIndentLoop_eq (sym : Str) : ∀ (n : Nat) (acc : Str),
    getIndentLoop sym n acc = acc ++ (List.replicate n sym).flatten := by
  intro n
  induction n with
  | zero => intro acc; simp [getIndentLoop]
  | succ n ih =>
    intro acc
    rw [getIndentLoop, ih, List.replicate_succ, List.flatten_cons, List.append_assoc]

/-- C20. For every count `n`, `getIndent( n )` is the indent symbol repeated `n` times: its
length is `n` times the length of the symbol, it is empty for `n = 0`, and `getIndent( n + 1 )`
is `getIndent( n )` followed by the symbol. -/
theorem C20_getIndent_repeats (indentSymbol : Str) (n : Nat) :
    getIndent indentSymbol n = (List.replicate n indentSymbol).flatten
    ∧ (getIndent indentSymbol n).length = n * indentSymbol.length
    ∧ getIndent indentSymbol 0 = []
    ∧ getIndent indentSymbol (n + 1) = getIndent indentSymbol n ++ indentSymbol := by
  have h : ∀ k, getIndent indentSymbol k = (List.replicate k indentSymbol).flatten := by
    intro k
    rw [getIndent, getIndentLoop_eq, List.nil_append]
  refine ⟨h n, ?_, rfl, ?_⟩
  · rw [h n]
    simp [List.length_flatten]
  · rw [h (n + 1), h n, List.replicate_succ', List.flatten_append]
    simp

/-! ## No space before a line break -/

theorem head_replaceSpaceNewline (d : Char) (rest : Str)
    (h : ['\n'] <+: replaceSpaceNewline (d :: rest)) :
    d = '\n' ∨ ∃ rest', d = ' ' ∧ rest = '\n' :: rest' := by
  cases rest with
  | nil =>
    rw [replaceSpaceNewline, List.cons_prefix_cons] at h
    exact Or.inl h.1.symm
  | cons e rest' =>
    rw [replaceSpaceNewline] at h
    split_ifs at h with hde
    · exact Or.inr ⟨rest', hde.1, by rw [hde.2]⟩
    · rw [List.cons_prefix_cons] at h
      exact Or.inl h.1.symm

theorem pair_replaceSpaceNewline (text : Str) :
    [' ', '\n'] <:+: replaceSpaceNewline text → [' ', ' ', '\n'] <:+: text := by
  induction text using replaceSpaceNewline.induct with
  | case1 =>
    intro h
    rw [replaceSpaceNewline, List.infix_nil] at h
    exact absurd h (by simp)
  | case2 c =>
    intro h
    have := h.length_le
    simp [replaceSpaceNewline] at this
  | case3 c d rest hcd ih =>
    intro h
    rw [replaceSpaceNewline, if_pos hcd, List.infix_cons_iff] at h
    rcases h with h | h
    · rw [List.cons_prefix_cons] at h
      exact absurd h.1 (by decide)
    · exact List.infix_cons (List.infix_cons (ih h))
  | case4 c d rest hcd ih =>
    intro h
    rw [replaceSpaceNewline, if_neg hcd, List.infix_cons_iff] at h
    rcases h with h | h
    · rw [List.cons_prefix_cons] at h
      obtain ⟨hc, hd⟩ := h
      rcases head_replaceSpaceNewline d rest hd with hd' | ⟨rest', hd', hrest⟩
      · exact absurd ⟨hc.symm, hd'⟩ hcd
      · subst hc hd' hrest
        exact (List.prefix_append [' ', ' ', '\n'] rest').isInfix
    · exact List.infix_cons (ih h)

theorem noTriple_concat (text : Str) (c : Char) (h : ¬[' ', ' ', '\n'] <:+: text)
    (hc : c ≠ '\n') : ¬[' ', ' ', '\n'] <:+: text ++ [c] := by
  rw [List.infix_concat_iff]
  rintro (hs | hi)
  · rw [List.suffix_concat_iff] at hs
    rcases hs with hs | ⟨t, ht, _⟩
    · exact absurd hs (by simp)
    · have := congrArg List.getLast? ht
      simp at this
      exact hc this.symm
  · exact h hi

theorem noTriple_append (l : Str) (hl : ∀ c ∈ l, c ≠ '\n') :
    ∀ text : Str, ¬[' ', ' ', '\n'] <:+: text → ¬[' ', ' ', '\n'] <:+: text ++ l := by
  induction l with
  | nil => intro text h; simpa using h
  | cons c l ih =>
    intro text h
    have := ih (fun x hx => hl x (List.mem_cons_of_mem _ hx)) (text ++ [c])
      (noTriple_concat text c h (hl c (List.mem_cons_self _ _)))
    simpa using this

theorem noTriple_newline (text : Str) (h : ¬[' ', ' ', '\n'] <:+: text)
    (he : ¬[' ', ' '] <:+ text) : ¬[' ', ' ', '\n'] <:+: text ++ ['\n'] := by
  rw [List.infix_concat_iff]
  rintro (hs | hi)
  · rw [List.suffix_concat_iff] at hs
    rcases hs with hs | ⟨t, ht, hsuf⟩
    · exact absurd hs (by simp)
    · have ht' : [' ', ' '] ++ ['\n'] = t ++ ['\n'] := ht
      rw [List.append_left_inj] at ht'
      rw [← ht'] at hsuf
      exact he hsuf
  · exact h hi

theorem noDouble_concat (text : Str) (c : Char) (hc : c ≠ ' ') :
    ¬[' ', ' '] <:+ text ++ [c] := by
  rw [List.suffix_concat_iff]
  rintro (hs | ⟨t, ht, _⟩)
  · exact absurd hs (by simp)
  · have := congrArg List.getLast? ht
    simp at this
    exact hc this.symm

theorem noDouble_concat_space (text : Str) (c : Char) (hc : c ≠ ' ') :
    ¬[' ', ' '] <:+ text ++ [c] ++ [' '] := by
  rw [List.suffix_concat_iff]
  rintro (hs | ⟨t, ht, hsuf⟩)
  · exact absurd hs (by simp)
  · have ht' : [' '] ++ [' '] = t ++ [' '] := ht
    rw [List.append_left_inj] at ht'
    rw [← ht', List.suffix_concat_iff] at hsuf
    rcases hsuf with hs | ⟨t', ht'', _⟩
    · exact absurd hs (by simp)
    · have := congrArg List.getLast? ht''
      simp at this
      exact hc this.symm

theorem noDouble_append (text l : Str) (hne : l ≠ []) (hl : ∀ c ∈ l, c ≠ ' ') :
    ¬[' ', ' '] <:+ text ++ l := by
  rcases List.eq_nil_or_concat l with h | ⟨l', x, h⟩
  · exact absurd h hne
  · subst h
    rw [List.concat_eq_append] at hl ⊢
    rw [← List.append_assoc]
    exact noDouble_concat _ x (hl x (by simp))

theorem mem_getIndent (sym : Str) (n : Nat) (c : Char) (h : c ∈ getIndent sym n) : c ∈ sym := by
  rw [getIndent, getIndentLoop_eq, List.nil_append, List.mem_flatten] at h
  obtain ⟨l, hl, hc⟩ := h
  rw [List.eq_of_mem_replicate hl] at hc
  exact hc

theorem text_break (o : Options) (hind : ∀ c ∈ o.indent, c ≠ ' ' ∧ c ≠ '\n') (text : Str)
    (n : Nat) (h : ¬[' ', ' ', '\n'] <:+: text) (he : ¬[' ', ' '] <:+ text) :
    ¬[' ', ' ', '\n'] <:+: text ++ ['\n'] ++ getIndent o.indent n
    ∧ ¬[' ', ' '] <:+ text ++ ['\n'] ++ getIndent o.indent n := by
  constructor
  · exact noTriple_append _ (fun c hc => (hind c (mem_getIndent _ _ _ hc)).2) _
      (noTriple_newline text h he)
  · rw [List.append_assoc]
    refine noDouble_append text _ (by simp) ?_
    intro c hc
    rcases List.mem_append.1 hc with hc | hc
    · rw [List.mem_singleton] at hc
      rw [hc]
      decide
    · exact (hind c (mem_getIndent _ _ _ hc)).1

theorem closeObject_text (o : Options) (next : Option Char) (c : Scan) :
    (closeObject o next c).st.text = c.st.text := by
  unfold closeObject
  split <;> rfl

theorem closeArray_text (o : Options) (next : Option Char) (c : Scan) :
    (closeArray o next c).st.text = c.st.text := by
  unfold closeArray
  split <;> rfl

theorem colon_text (c : Scan) : (colon c).st.text = c.st.text ++ [' '] :=
  (List.append_assoc _ _ _).symm

theorem comma_text (o : Options) (c : Scan) :
    (comma o c).st.text = c.st.text ++ [' ']
    ∨ (comma o c).st.text
        = c.st.text ++ [' '] ++ ['\n'] ++ getIndent o.indent (c.st.currentPath.length + 1) := by
  unfold comma State.text
  simp only []
  split_ifs
  · right
    simp only [List.append_assoc]
  · left
    simp only [List.append_assoc]

theorem quote_text (o : Options) (charIndex : Nat) (prev next : Option Char) (key : Str)
    (c : Scan) : (quote o charIndex prev next key c).st.text = c.st.text := by
  unfold quote
  simp only []
  split_ifs <;> rfl

theorem structural_in_string (o : Options) (char : Char) (next : Option Char) (c : Scan)
    (h : c.st.inString = true) : structural o char next c = c := by
  have hg : (!c.st.inKey && !c.st.inValue) = false := by
    unfold State.inString at h
    cases hk : c.st.inKey <;> cases hv : c.st.inValue <;> simp_all
  unfold structural
  simp only [hg]
  rfl

theorem structural_text_ok (o : Options) (hind : ∀ c ∈ o.indent, c ≠ ' ' ∧ c ≠ '\n')
    (char : Char) (next : Option Char) (c : Scan) (text : Str)
    (hc : c.st.text = text ++ [char]) (hT : ¬[' ', ' ', '\n'] <:+: text)
    (hnl : char ≠ '\n') (hsp : char ≠ ' ') :
    ¬[' ', ' ', '\n'] <:+: (structural o char next c).st.text
    ∧ ¬[' ', ' '] <:+ (structural o char next c).st.text := by
  have hsame : ∀ t : Str, t = c.st.text →
      ¬[' ', ' ', '\n'] <:+: t ∧ ¬[' ', ' '] <:+ t := by
    intro t ht
    rw [ht, hc]
    exact ⟨noTriple_concat text char hT hnl, noDouble_concat text char hsp⟩
  have hspace : ¬[' ', ' ', '\n'] <:+: c.st.text ++ [' ']
      ∧ ¬[' ', ' '] <:+ c.st.text ++ [' '] := by
    rw [hc]
    exact ⟨noTriple_concat _ ' ' (noTriple_concat text char hT hnl) (by decide),
      noDouble_concat_space text char hsp⟩
  unfold structural
  split
  · rw [lookahead_st]
    split_ifs
    · exact hsame _ rfl
    · exact hsame _ (closeObject_text o next c)
    · exact hsame _ rfl
    · exact hsame _ (closeArray_text o next c)
    · rw [colon_text]
      exact hspace
    · rcases comma_text o c with h | h
      · rw [h]
        exact hspace
      · rw [h]
        exact text_break o hind _ _ hspace.1 hspace.2
    · exact hsame _ rfl
  · exact hsame _ rfl

theorem scanChar_text_ok (o : Options) (hind : ∀ c ∈ o.indent, c ≠ ' ' ∧ c ≠ '\n')
    (input : Str) (charIndex : Nat) (char : Char) (s : State)
    (hT : ¬[' ', ' ', '\n'] <:+: s.text) (hnl : char ≠ '\n')
    (hsp : s.inString = false → char ≠ ' ') :
    ¬[' ', ' ', '\n'] <:+: (scanChar o input charIndex char s).st.text
    ∧ ((scanChar o input charIndex char s).shouldBreakLine = true →
        ¬[' ', ' '] <:+ (scanChar o input charIndex char s).st.text) := by
  have htext : ∀ (cfg : ConfigNode) (b : Bool) (n : Nat),
      (Scan.mk { s with line := s.line ++ [char] } cfg b n).st.text = s.text ++ [char] :=
    fun _ _ _ => (List.append_assoc _ _ _).symm
  unfold scanChar
  simp only []
  cases hin : s.inString with
  | true =>
    rw [structural_in_string o char _ _ hin]
    by_cases hq : char = '"'
    · rw [if_pos hq, quote_text, htext]
      exact ⟨noTriple_concat _ char hT hnl,
        fun _ => noDouble_concat _ char (by rw [hq]; decide)⟩
    · rw [if_neg hq, htext]
      exact ⟨noTriple_concat _ char hT hnl, fun h => absurd h (by simp)⟩
  | false =>
    have hok := structural_text_ok o hind char input[charIndex + 1]?
      (Scan.mk { s with line := s.line ++ [char] }
        (getConfig o.defKey o.root s.currentPath) false 0)
      s.text (htext _ _ _) hT hnl (hsp hin)
    by_cases hq : char = '"'
    · rw [if_pos hq, quote_text]
      exact ⟨hok.1, fun _ => hok.2⟩
    · rw [if_neg hq]
      exact ⟨hok.1, fun _ => hok.2⟩

theorem step_text_ok (o : Options) (hind : ∀ c ∈ o.indent, c ≠ ' ' ∧ c ≠ '\n')
    (input : Str) (charIndex : Nat) (char : Char) (s : State)
    (hc : input[charIndex]? = some char)
    (hT : ¬[' ', ' ', '\n'] <:+: s.text) (hnl : char ≠ '\n')
    (hsp : s.inString = false → char ≠ ' ') :
    ¬[' ', ' ', '\n'] <:+: (step o input s charIndex).text := by
  obtain ⟨h1, h2⟩ := scanChar_text_ok o hind input charIndex char s hT hnl hsp
  unfold step
  rw [hc]
  simp only []
  unfold flush
  split_ifs with hb
  · have := (text_break o hind _ (scanChar o input charIndex char s).indentSize h1 (h2 hb)).1
    simpa [State.text, List.append_assoc] using this
  · exact h1

theorem closeObject_inString (o : Options) (next : Option Char) (c : Scan) :
    (closeObject o next c).st.inKey = c.st.inKey
    ∧ (closeObject o next c).st.inValue = c.st.inValue := by
  unfold closeObject
  split <;> exact ⟨rfl, rfl⟩

theorem closeArray_inString (o : Options) (next : Option Char) (c : Scan) :
    (closeArray o next c).st.inKey = c.st.inKey
    ∧ (closeArray o next c).st.inValue = c.st.inValue := by
  unfold closeArray
  split <;> exact ⟨rfl, rfl⟩

theorem structural_inString (o : Options) (char : Char) (next : Option Char) (c : Scan) :
    (structural o char next c).st.inKey = c.st.inKey
    ∧ (structural o char next c).st.inValue = c.st.inValue := by
  unfold structural
  split
  · rw [lookahead_st]
    split_ifs
    · exact ⟨rfl, rfl⟩
    · exact closeObject_inString o next c
    · exact ⟨rfl, rfl⟩
    · exact closeArray_inString o next c
    · exact ⟨rfl, rfl⟩
    · exact ⟨rfl, rfl⟩
    · exact ⟨rfl, rfl⟩
  · exact ⟨rfl, rfl⟩

theorem quote_inString (o : Options) (charIndex : Nat) (prev next : Option Char) (key : Str)
    (c : Scan) (hprev : prev ≠ some '\\')
    (hex : ¬(c.st.inKey = true ∧ c.st.inValue = true)) :
    (quote o charIndex prev next key c).st.inString = !c.st.inString
    ∧ ¬((quote o charIndex prev next key c).st.inKey = true
        ∧ (quote o charIndex prev next key c).st.inValue = true) := by
  unfold quote State.inString
  simp only []
  cases hk : c.st.inKey <;> cases hv : c.st.inValue
  · simp only [Bool.or_self, Bool.false_and, Bool.false_eq_true, if_false, Bool.not_false]
    split <;> simp [hk, hv]
  · simp only [Bool.false_or, Bool.true_and, decide_eq_true_eq, hprev, ne_eq,
      not_false_eq_true, if_true, Bool.false_eq_true, if_false, Bool.not_true]
    split <;> simp [hk]
  · simp [hprev, hv]
  · exact absurd ⟨hk, hv⟩ hex

theorem flush_inString (o : Options) (c : Scan) :
    (flush o c).inKey = c.st.inKey ∧ (flush o c).inValue = c.st.inValue := by
  unfold flush
  split <;> exact ⟨rfl, rfl⟩

theorem step_inString (o : Options) (input : Str) (charIndex : Nat) (char : Char) (s : State)
    (hc : input[charIndex]? = some char)
    (hprev : (if charIndex = 0 then none else input[charIndex - 1]?) ≠ some '\\')
    (hex : ¬(s.inKey = true ∧ s.inValue = true)) :
    (step o input s charIndex).inString = (if char = '"' then !s.inString else s.inString)
    ∧ ¬((step o input s charIndex).inKey = true
        ∧ (step o input s charIndex).inValue = true) := by
  unfold step
  rw [hc]
  simp only []
  obtain ⟨hfk, hfv⟩ := flush_inString o (scanChar o input charIndex char s)
  unfold State.inString
  rw [hfk, hfv]
  unfold scanChar
  simp only []
  obtain ⟨hsk, hsv⟩ := structural_inString o char input[charIndex + 1]?
    (Scan.mk { s with line := s.line ++ [char] }
      (getConfig o.defKey o.root s.currentPath) false 0)
  by_cases hq : char = '"'
  · rw [if_pos hq, if_pos hq]
    have hex' : ¬((structural o char input[charIndex + 1]?
        (Scan.mk { s with line := s.line ++ [char] }
          (getConfig o.defKey o.root s.currentPath) false 0)).st.inKey = true
        ∧ (structural o char input[charIndex + 1]?
        (Scan.mk { s with line := s.line ++ [char] }
          (getConfig o.defKey o.root s.currentPath) false 0)).st.inValue = true) := by
      rw [hsk, hsv]
      exact hex
    have := quote_inString o charIndex _ input[charIndex + 1]?
      ((input.take charIndex).drop (structural o char input[charIndex + 1]?
        (Scan.mk { s with line := s.line ++ [char] }
          (getConfig o.defKey o.root s.currentPath) false 0)).st.keyStartIndex) _ hprev hex'
    unfold State.inString at this
    rw [hsk, hsv] at this
    exact this
  · rw [if_neg hq, if_neg hq, hsk, hsv]
    exact ⟨rfl, hex⟩

theorem scan_prefix_ok (o : Options) (hind : ∀ c ∈ o.indent, c ≠ ' ' ∧ c ≠ '\n')
    (input : Str) (hb : '\\' ∉ input) (hct : compactText input) :
    ∀ n, n ≤ input.length →
      ((List.range n).foldl (step o input) State.init).inString
          = decide ((input.take n).count '"' % 2 = 1)
      ∧ ¬(((List.range n).foldl (step o input) State.init).inKey = true
          ∧ ((List.range n).foldl (step o input) State.init).inValue = true)
      ∧ ¬[' ', ' ', '\n'] <:+: ((List.range n).foldl (step o input) State.init).text := by
  intro n
  induction n with
  | zero =>
    intro _
    refine ⟨by rfl, by simp [State.init], ?_⟩
    intro h
    have := h.length_le
    simp [State.text, State.init] at this
  | succ n ih =>
    intro hn
    have hlt : n < input.length := hn
    obtain ⟨hpar, hex, hT⟩ := ih (Nat.le_of_lt hlt)
    have hget : input[n]? = some input[n] := List.getElem?_eq_getElem hlt
    have hmem : input[n] ∈ input := List.getElem_mem hlt
    have hnl : input[n] ≠ '\n' := fun h => hct.1 (h ▸ hmem)
    have hsp : ((List.range n).foldl (step o input) State.init).inString = false →
        input[n] ≠ ' ' := by
      intro hin hch
      rw [hch] at hget
      have := hct.2 n hget
      rw [hpar, decide_eq_false_iff_not] at hin
      exact hin this
    have hprev : (if n = 0 then none else input[n - 1]?) ≠ some '\\' := by
      split
      · simp
      · intro h
        exact hb (List.getElem?_mem h)
    obtain ⟨hin', hex'⟩ := step_inString o input n input[n] _ hget hprev hex
    rw [List.range_succ, List.foldl_append, List.foldl_cons, List.foldl_nil]
    refine ⟨?_, hex', step_text_ok o hind input n input[n] _ hget hT hnl hsp⟩
    rw [hin', hpar, List.take_succ, hget, List.count_append]
    by_cases hq : input[n] = '"'
    · rw [if_pos hq, hq]
      simp only [Option.toList_some, List.count_singleton_self]
      by_cases hodd : List.count '"' (List.take n input) % 2 = 1
      · have : ¬(List.count '"' (List.take n input) + 1) % 2 = 1 := by omega
        simp [hodd, this]
      · have : (List.count '"' (List.take n input) + 1) % 2 = 1 := by omega
        simp [hodd, this]
    · rw [if_neg hq]
      have : List.count '"' [input[n]] = 0 := by
        rw [List.count_singleton]
        simp [hq]
      simp only [Option.toList_some, this, Nat.add_zero]

/-- The formatter on a compact text without backslashes, with an indent symbol that holds no
space and no line break: the output has no space right before a line break. -/
theorem format_no_trailing_space (o : Options) (hind : ∀ c ∈ o.indent, c ≠ ' ' ∧ c ≠ '\n')
    (input : Str) (hb : '\\' ∉ input) (hct : compactText input) :
    ¬[' ', '\n'] <:+: format o input := by
  intro h
  unfold format scan at h
  exact (scan_prefix_ok o hind input hb hct input.length le_rfl).2.2
    (pair_replaceSpaceNewline _ h)

/-! ## The serializer produces compact texts -/

theorem closedText_plain (text : Str) (h : ∀ c ∈ text, c ≠ '\n' ∧ c ≠ ' ' ∧ c ≠ '"') :
    closedText text := by
  refine ⟨⟨fun hm => (h _ hm).1 rfl, ?_⟩, ?_⟩
  · intro i hi
    exact absurd rfl (h _ (List.getElem?_mem hi)).2.1
  · rw [List.count_eq_zero.2 (fun hm => (h _ hm).2.2 rfl)]

theorem closedText_append (a b : Str) (ha : closedText a) (hb : closedText b) :
    closedText (a ++ b) := by
  obtain ⟨⟨hna, hsa⟩, hca⟩ := ha
  obtain ⟨⟨hnb, hsb⟩, hcb⟩ := hb
  refine ⟨⟨?_, ?_⟩, ?_⟩
  · intro hm
    rcases List.mem_append.1 hm with hm | hm
    · exact hna hm
    · exact hnb hm
  · intro i hi
    rw [List.take_append_eq_append_take, List.count_append]
    by_cases hlt : i < a.length
    · rw [List.getElem?_append_left hlt] at hi
      have h1 := hsa i hi
      have h2 : i - a.length = 0 := by omega
      rw [h2, List.take_zero, List.count_nil]
      omega
    · rw [List.getElem?_append_right (by omega)] at hi
      have h1 := hsb (i - a.length) hi
      rw [List.take_of_length_le (by omega)]
      omega
  · rw [List.count_append]
    omega

theorem closedText_quoted (text : Str) (h : ∀ c ∈ text, c ≠ '\n' ∧ c ≠ '"') :
    closedText ('"' :: (text ++ ['"'])) := by
  have hcount : ∀ l : Str, (∀ c ∈ l, c ∈ text) → l.count '"' = 0 := fun l hl =>
    List.count_eq_zero.2 (fun hm => (h _ (hl _ hm)).2 rfl)
  refine ⟨⟨?_, ?_⟩, ?_⟩
  · intro hm
    rcases List.mem_cons.1 hm with hm | hm
    · exact absurd hm (by decide)
    · rcases List.mem_append.1 hm with hm | hm
      · exact (h _ hm).1 rfl
      · rw [List.mem_singleton] at hm
        exact absurd hm (by decide)
  · intro i hi
    cases i with
    | zero =>
      rw [List.getElem?_cons_zero] at hi
      exact absurd (Option.some.inj hi) (by decide)
    | succ j =>
      rw [List.getElem?_cons_succ] at hi
      have hj : j < text.length := by
        by_contra hge
        rw [List.getElem?_append_right (by omega)] at hi
        have hmem := List.getElem?_mem hi
        rw [List.mem_singleton] at hmem
        exact absurd hmem (by decide)
      rw [List.take_succ_cons, List.count_cons_self,
        List.take_append_of_le_length (by omega),
        hcount _ (fun c hc => List.mem_of_mem_take hc)]
  · rw [List.count_cons_self, List.count_append, hcount text (fun _ hc => hc),
      List.count_singleton_self]

theorem quoteChar_plain (c : Char) (h : '\\' ∉ quoteChar c) :
    quoteChar c = [c] ∧ c ≠ '\n' ∧ c ≠ '"' := by
  unfold quoteChar at h ⊢
  split_ifs at h ⊢ with h1 h2 h3 h4 h5 h6 h7 h8
  all_goals first
    | exact absurd (List.mem_cons_self _ _) h
    | exact ⟨rfl, h5, h1⟩

theorem quoteJSONString_closed (s : Str) (h : '\\' ∉ quoteJSONString s) :
    closedText (quoteJSONString s) := by
  unfold quoteJSONString at h ⊢
  apply closedText_quoted
  intro x hx
  obtain ⟨c, hc, hxc⟩ := List.mem_flatMap.1 hx
  have hno : '\\' ∉ quoteChar c := by
    intro hm
    apply h
    apply List.mem_cons_of_mem
    apply List.mem_append_left
    exact List.mem_flatMap.2 ⟨c, hc, hm⟩
  obtain ⟨heq, hn, hq⟩ := quoteChar_plain c hno
  rw [heq, List.mem_singleton] at hxc
  rw [hxc]
  exact ⟨hn, hq⟩

theorem digitChar_plain : ∀ k < 10,
    Nat.digitChar k ≠ '\n' ∧ Nat.digitChar k ≠ ' ' ∧ Nat.digitChar k ≠ '"' := by
  decide

theorem toDigitsCore_plain : ∀ (fuel n : Nat) (ds : Str),
    (∀ c ∈ ds, c ≠ '\n' ∧ c ≠ ' ' ∧ c ≠ '"') →
    ∀ c ∈ Nat.toDigitsCore 10 fuel n ds, c ≠ '\n' ∧ c ≠ ' ' ∧ c ≠ '"' := by
  intro fuel
  induction fuel with
  | zero => intro n ds h; simpa [Nat.toDigitsCore] using h
  | succ fuel ih =>
    intro n ds h
    have hds : ∀ c ∈ Nat.digitChar (n % 10) :: ds, c ≠ '\n' ∧ c ≠ ' ' ∧ c ≠ '"' := by
      intro c hc
      rcases List.mem_cons.1 hc with hc | hc
      · rw [hc]
        exact digitChar_plain _ (Nat.mod_lt _ (by decide))
      · exact h c hc
    simp only [Nat.toDigitsCore]
    split_ifs
    · exact hds
    · exact ih _ _ hds

theorem natRepr_plain (n : Nat) :
    ∀ c ∈ (Nat.repr n).toList, c ≠ '\n' ∧ c ≠ ' ' ∧ c ≠ '"' :=
  toDigitsCore_plain (n + 1) n [] (fun _ h => absurd h (List.not_mem_nil _))

theorem intRepr_closed (n : Int) : closedText n.repr.toList := by
  apply closedText_plain
  cases n with
  | ofNat m => exact natRepr_plain m
  | negSucc m =>
    intro c hc
    have hc' : c ∈ '-' :: (Nat.repr (m + 1)).toList := hc
    rcases List.mem_cons.1 hc' with hc' | hc'
    · rw [hc']
      decide
    · exact natRepr_plain _ c hc'

theorem closedText_bracketed (l r : Char) (text : Str)
    (hl : l ≠ '\n' ∧ l ≠ ' ' ∧ l ≠ '"') (hr : r ≠ '\n' ∧ r ≠ ' ' ∧ r ≠ '"')
    (h : closedText text) : closedText (l :: (text ++ [r])) := by
  have h1 : closedText [l] := closedText_plain _ (by simpa using hl)
  have h2 : closedText [r] := closedText_plain _ (by simpa using hr)
  exact closedText_append [l] _ h1 (closedText_append _ _ h h2)

theorem closedText_separated (sep : Char) (a b : Str)
    (hs : sep ≠ '\n' ∧ sep ≠ ' ' ∧ sep ≠ '"')
    (ha : closedText a) (hb : closedText b) : closedText (a ++ sep :: b) := by
  have h1 : closedText [sep] := closedText_plain _ (by simpa using hs)
  exact closedText_append _ _ ha (closedText_append [sep] _ h1 hb)

mutual
theorem stringify_closed : ∀ v : JSON, '\\' ∉ stringify v → closedText (stringify v)
  | .null, _ => closedText_plain _ (by decide)
  | .bool true, _ => closedText_plain _ (by decide)
  | .bool false, _ => closedText_plain _ (by decide)
  | .num n, _ => intRepr_closed n
  | .str s, h => quoteJSONString_closed s h
  | .arr items, h => by
    rw [stringify] at h ⊢
    exact closedText_bracketed '[' ']' _ (by decide) (by decide)
      (stringifyItems_closed items (fun hm =>
        h (List.mem_cons_of_mem _ (List.mem_append_left _ hm))))
  | .obj members, h => by
    rw [stringify] at h ⊢
    exact closedText_bracketed '{' '}' _ (by decide) (by decide)
      (stringifyMembers_closed members (fun hm =>
        h (List.mem_cons_of_mem _ (List.mem_append_left _ hm))))
theorem stringifyItems_closed : ∀ items : List JSON,
    '\\' ∉ stringifyItems items → closedText (stringifyItems items)
  | [], _ => closedText_plain _ (by simp [stringifyItems])
  | [x], h => by
    rw [stringifyItems] at h ⊢
    exact stringify_closed x h
  | x :: y :: rest, h => by
    rw [stringifyItems] at h ⊢
    exact closedText_separated ',' _ _ (by decide)
      (stringify_closed x (fun hm => h (List.mem_append_left _ hm)))
      (stringifyItems_closed (y :: rest) (fun hm =>
        h (List.mem_append_right _ (List.mem_cons_of_mem _ hm))))
theorem stringifyMembers_closed : ∀ members : List (Str × JSON),
    '\\' ∉ stringifyMembers members → closedText (stringifyMembers members)
  | [], _ => closedText_plain _ (by simp [stringifyMembers])
  | [(k, v)], h => by
    rw [stringifyMembers] at h ⊢
    exact closedText_separated ':' _ _ (by decide)
      (quoteJSONString_closed k (fun hm => h (List.mem_append_left _ hm)))
      (stringify_closed v (fun hm =>
        h (List.mem_append_right _ (List.mem_cons_of_mem _ hm))))
  | (k, v) :: m :: rest, h => by
    rw [stringifyMembers] at h ⊢
    have hk : closedText (quoteJSONString k) :=
      quoteJSONString_closed k (fun hm =>
        h (List.mem_append_left _ (List.mem_append_left _ hm)))
    have hv : closedText (stringify v) :=
      stringify_closed v (fun hm => h (List.mem_append_left _
        (List.mem_append_right _ (List.mem_cons_of_mem _ hm))))
    have hrest : closedText (stringifyMembers (m :: rest)) :=
      stringifyMembers_closed (m :: rest) (fun hm =>
        h (List.mem_append_right _ (List.mem_cons_of_mem _ hm)))
    exact closedText_separated ',' _ _ (by decide)
      (closedText_separated ':' _ _ (by decide) hk hv) hrest
end

/-- C17. For every options whose indent symbol in effect is the default tab (`indentSymbol`
absent, empty or `"\t"`), the returned text holds no space immediately followed by a line
break: for every compact text without backslash (no raw line break, every space inside a
string literal), and so for the compact JSON text of every value, when that text holds no
backslash. -/
theorem C17_no_trailing_space (o : Options) (hind : o.indent = ['\t']) :
    (∀ input : Str, '\\' ∉ input → compactText input → ¬[' ', '\n'] <:+: format o input)
    ∧ (∀ inputJSON : JSON, '\\' ∉ stringify inputJSON →
        ¬[' ', '\n'] <:+: formatJSONStringWhitespace inputJSON o) := by
  have hsym : ∀ c ∈ o.indent, c ≠ ' ' ∧ c ≠ '\n' := by
    rw [hind]
    decide
  exact ⟨fun input hb hct => format_no_trailing_space o hsym input hb hct,
    fun inputJSON hb => format_no_trailing_space o hsym (stringify inputJSON) hb
      (stringify_closed inputJSON hb).1⟩

/-- C17 at the value `{"a b": [1, "x "]}` with depth 2. -/
theorem C17_no_trailing_space_witness :
    Options.indent ⟨none, none, none, none, some 2⟩ = ['\t']
    ∧ '\\' ∉ stringify (.obj [("a b".toList, .arr [.num 1, .str "x ".toList])])
    ∧ ¬[' ', '\n'] <:+: formatJSONStringWhitespace
        (.obj [("a b".toList, .arr [.num 1, .str "x ".toList])])
        ⟨none, none, none, none, some 2⟩ :=
  ⟨rfl, by decide,
    (C17_no_trailing_space ⟨none, none, none, none, some 2⟩ rfl).2
      (.obj [("a b".toList, .arr [.num 1, .str "x ".toList])]) (by decide)⟩

end FormatJSONWhitespace
